import Mathlib

/-!
# Verification of the picosnitch event-correlation core

This file gives a shallow embedding, in Lean 4, of the central pure logic of
`picosnitch.py`: command-line tokenization (Python `shlex.split` with the
whitespace-split fallback), the `difflib`-based command-line clustering
(`get_common_pattern`), process-identity resolution (`get_proc_info`), the
updater batch/deferral logic (`process_queue`), the knowledge-base update
(`update_snitch`), and the persistence layer (`write`/`read`) at the level of a
JSON abstract-syntax tree.

External effects are modelled as explicit oracles passed to the embedded
functions:
* the live process table (`psutil`) is a function `Nat → Option PsAttrs`;
* reverse-DNS lookup composed with `reverse_domain_name` is a function
  `String → String` (the lookup is network-bound);
* the hasher and the VirusTotal client are functions supplying digests and
  verdicts;
* filesystem success/failure for the persistence write is a pair of booleans.

Python `dict`s are modelled as association lists with the usual `dict`
semantics: assignment to an existing key keeps its position, a new key is
appended, and `OrderedDict.popitem(last=False)` removes the head.
-/

namespace Picosnitch

/-! ## Characters and small string utilities -/

/-- The single-quote character (written via its code point). -/
def sqC : Char := Char.ofNat 39

/-- The double-quote character. -/
def dqC : Char := Char.ofNat 34

/-- The backslash character. -/
def bsC : Char := Char.ofNat 92

/-- Python `str` whitespace for `str.split()` (ASCII portion, which is what
the daemon ever sees from the probes). -/
def pySpace (c : Char) : Bool :=
  c = ' ' || c = Char.ofNat 9 || c = Char.ofNat 10 || c = Char.ofNat 13 ||
  c = Char.ofNat 11 || c = Char.ofNat 12

/-- Splitting worker: accumulate the current word, emit it at each
whitespace run boundary. -/
def pySplitWsGo : List Char → List Char → List String → List String
  | [], cur, acc => if cur = [] then acc else acc ++ [String.mk cur]
  | c :: cs, cur, acc =>
    if pySpace c then
      if cur = [] then pySplitWsGo cs [] acc
      else pySplitWsGo cs [] (acc ++ [String.mk cur])
    else pySplitWsGo cs (cur ++ [c]) acc

/-- Split on runs of whitespace, discarding empty pieces: Python
`s.strip().split()` (`str.split` with no separator already strips the ends). -/
def pySplitWs (s : String) : List String := pySplitWsGo s.data [] []

/-- Python substring test `needle in hay` for strings. -/
def pyInStr (needle hay : String) : Prop :=
  needle.data <:+: hay.data

instance (needle hay : String) : Decidable (pyInStr needle hay) :=
  List.decidableInfix needle.data hay.data

/-- Boolean lexicographic comparison of code-point lists, as Python compares
strings. -/
def lexLeC : List Char → List Char → Bool
  | [], _ => true
  | _ :: _, [] => false
  | a :: as, b :: bs =>
    if a.val < b.val then true
    else if b.val < a.val then false
    else lexLeC as bs

/-- Python string `<=`. -/
def pyStrLe (a b : String) : Bool := lexLeC a.data b.data

/-- Python string `<` (strict). -/
def pyStrLt (a b : String) : Bool := pyStrLe a b && a ≠ b

/-! ## Sorting (Python `list.sort` is a stable sort by `<=`) -/

/-- Insert into a `le`-sorted list (stable: goes after equal elements). -/
def sIns {α : Type} (le : α → α → Bool) (x : α) : List α → List α
  | [] => [x]
  | y :: ys => if le y x then y :: sIns le x ys else x :: y :: ys

/-- Stable insertion sort; agrees with Python `list.sort()` whenever `le` is a
total order (the only uses are on `Int` and on strings, where elements that
compare equal are identical). -/
def sSort {α : Type} (le : α → α → Bool) : List α → List α
  | [] => []
  | x :: xs => sIns le x (sSort le xs)

theorem sIns_perm {α : Type} (le : α → α → Bool) (x : α) (l : List α) :
    List.Perm (sIns le x l) (x :: l) := by
  induction l with
  | nil => simp [sIns]
  | cons y ys ih =>
    simp only [sIns]
    split
    · exact (List.Perm.cons y ih).trans (List.Perm.swap x y ys)
    · exact List.Perm.refl _

theorem sSort_perm {α : Type} (le : α → α → Bool) (l : List α) :
    List.Perm (sSort le l) l := by
  induction l with
  | nil => simp [sSort]
  | cons x xs ih =>
    exact (sIns_perm le x (sSort le xs)).trans (List.Perm.cons x ih)

theorem sSort_length {α : Type} (le : α → α → Bool) (l : List α) :
    (sSort le l).length = l.length :=
  (sSort_perm le l).length_eq

theorem sSort_mem {α : Type} (le : α → α → Bool) (x : α) (l : List α) :
    x ∈ sSort le l ↔ x ∈ l :=
  (sSort_perm le l).mem_iff

/-! ## Association lists (Python dict semantics) -/

/-- Dict lookup. -/
def alGet {κ ν : Type} [DecidableEq κ] (k : κ) : List (κ × ν) → Option ν
  | [] => none
  | (k2, v) :: rest => if k2 = k then some v else alGet k rest

/-- Dict assignment `d[k] = v`: overwrite in place, or append a new key. -/
def alUp {κ ν : Type} [DecidableEq κ] (k : κ) (v : ν) : List (κ × ν) → List (κ × ν)
  | [] => [(k, v)]
  | (k2, w) :: rest => if k2 = k then (k2, v) :: rest else (k2, w) :: alUp k v rest

theorem alGet_alUp_self {κ ν : Type} [DecidableEq κ] (k : κ) (v : ν)
    (m : List (κ × ν)) : alGet k (alUp k v m) = some v := by
  induction m with
  | nil => simp [alGet, alUp]
  | cons p rest ih =>
    obtain ⟨k2, w⟩ := p
    by_cases h : k2 = k <;> simp [alGet, alUp, h, ih]

theorem alGet_alUp_other {κ ν : Type} [DecidableEq κ] (k q : κ) (v : ν)
    (m : List (κ × ν)) (h : q ≠ k) : alGet k (alUp q v m) = alGet k m := by
  induction m with
  | nil => simp [alGet, alUp, h]
  | cons p rest ih =>
    obtain ⟨k2, w⟩ := p
    by_cases h2 : k2 = q
    · subst h2; simp [alGet, alUp, h]
    · simp only [alUp, if_neg h2]
      by_cases h3 : k2 = k <;> simp [alGet, h3, ih]

/-! ## Python `shlex` (POSIX mode, `whitespace_split=True`, no comments)

`shlex.split(cmdline)` as called at `process_queue`: quotes and backslash
escapes are honoured; an unterminated quote or a trailing escape raises
`ValueError`, modelled by `none`. -/

/-- `shlex.whitespace` is the four characters space, tab, CR, LF. -/
def shlexWs (c : Char) : Bool :=
  c = ' ' || c = Char.ofNat 9 || c = Char.ofNat 13 || c = Char.ofNat 10

/-- Lexer state of `shlex.read_token`: outside a token, inside a word, inside
single/double quotes, or just after an escape character (the escape remembers
which state it returns to). -/
inductive LexMode
  | between
  | word
  | single
  | double
  | escWord
  | escDouble

/-- One pass of `shlex.read_token` iterated to the end of input.
`tok`/`quoted` are the current token and its saw-a-quote flag, `acc` the
emitted tokens; `none` models `ValueError` (no closing quotation / no escaped
character). `quoted` is set on entering a quote, which is observationally the
same place the reference sets it (while scanning inside the quote). -/
def shlexCore : List Char → LexMode → List Char → Bool → List String → Option (List String)
  | [], mode, tok, quoted, acc =>
    match mode with
    | .single | .double => none
    | .escWord | .escDouble => none
    | _ => some (acc ++ if tok ≠ [] ∨ quoted then [String.mk tok] else [])
  | c :: cs, .between, tok, quoted, acc =>
    if shlexWs c then
      if tok ≠ [] ∨ quoted then shlexCore cs .between [] false (acc ++ [String.mk tok])
      else shlexCore cs .between tok quoted acc
    else if c = bsC then shlexCore cs .escWord tok quoted acc
    else if c = sqC then shlexCore cs .single tok true acc
    else if c = dqC then shlexCore cs .double tok true acc
    else shlexCore cs .word [c] quoted acc
  | c :: cs, .word, tok, quoted, acc =>
    if shlexWs c then shlexCore cs .between [] false (acc ++ [String.mk tok])
    else if c = sqC then shlexCore cs .single tok true acc
    else if c = dqC then shlexCore cs .double tok true acc
    else if c = bsC then shlexCore cs .escWord tok quoted acc
    else shlexCore cs .word (tok ++ [c]) quoted acc
  | c :: cs, .single, tok, quoted, acc =>
    if c = sqC then shlexCore cs .word tok quoted acc
    else shlexCore cs .single (tok ++ [c]) quoted acc
  | c :: cs, .double, tok, quoted, acc =>
    if c = dqC then shlexCore cs .word tok quoted acc
    else if c = bsC then shlexCore cs .escDouble tok quoted acc
    else shlexCore cs .double (tok ++ [c]) quoted acc
  | c :: cs, .escWord, tok, quoted, acc =>
    shlexCore cs .word (tok ++ [c]) quoted acc
  | c :: cs, .escDouble, tok, quoted, acc =>
    if c ≠ dqC ∧ c ≠ bsC then shlexCore cs .double (tok ++ [bsC, c]) quoted acc
    else shlexCore cs .double (tok ++ [c]) quoted acc

/-- `shlex.split(s)` (posix, comments disabled). -/
def shlexSplitPy (s : String) : Option (List String) :=
  shlexCore s.data .between [] false []

/-- Characters `shlex.quote` leaves unquoted: ASCII word characters plus
`@ % + = : , .` and slash and hyphen. -/
def shlexSafeChar (c : Char) : Bool :=
  (c.isAlpha && c.val < 128) || (c.isDigit) || c = '_' || c = '@' || c = '%' ||
  c = '+' || c = '=' || c = ':' || c = ',' || c = '.' || c = '/' || c = '-'

/-- `shlex.quote`. -/
def shlexQuote (s : String) : String :=
  if s = "" then String.mk [sqC, sqC]
  else if s.data.all shlexSafeChar then s
  else
    String.mk
      ([sqC] ++
        (s.data.flatMap (fun c => if c = sqC then [sqC, dqC, sqC, dqC, sqC] else [c])) ++
        [sqC])

/-- `shlex.join`, used when caching a `psutil` command line. -/
def shlexJoin (xs : List String) : String :=
  String.intercalate " " (xs.map shlexQuote)

/-! ## Tokenization of an ExecEvent command line (`process_queue`, exec arm)

```python
try:
    cmdline = shlex.split(proc["cmdline"])
except Exception:
    cmdline = proc["cmdline"].strip().split()
proc["exe"] = cmdline[0]
if proc["exe"] == "exec":
    proc["exe"] = cmdline[1]
```
-/

/-- Shell-style split with whitespace-split fallback on failure. -/
def tokenizeCmdline (c : String) : List String :=
  match shlexSplitPy c with
  | some toks => toks
  | none => pySplitWs c

/-- The executable path extracted from the token list: the first token, or the
second when the first is literally `exec`.  `none` models the `IndexError`
raised (and caught by the per-event handler) when the needed token is
missing. -/
def execExe (toks : List String) : Option String :=
  match toks with
  | [] => none
  | e :: rest => if e = "exec" then rest.head? else some e

/-! ## Events and process identities -/

/-- The identity record cached in `known_pids` (the PidIdentity map): the
fields of the event/psutil dicts that the updater ever reads back. -/
structure ProcInfo where
  pid : Nat
  name : String
  exe : String
  cmdline : String
deriving DecidableEq

/-- A decoded `conn` event from the monitor (DNS events are folded into conn
events with port 0 and empty ip; their informational `host` key is never read
by the updater and is not modelled). -/
structure ConnEv where
  pid : Nat
  ppid : Nat
  name : String
  port : Int
  ip : String
deriving DecidableEq

/-- A decoded event from the monitor queue. -/
inductive RawEvent
  | ex (pid : Nat) (name : String) (cmdline : String)
  | conn (c : ConnEv)
deriving DecidableEq

/-- A deferred connection (a conn dict carrying the `missed` counter). -/
structure MissedConn where
  conn : ConnEv
  missed : Nat
deriving DecidableEq

/-- What `psutil.Process(pid).as_dict(attrs=[...], ad_value="")` yields for a
live process: each unreadable attribute is replaced by the `ad_value`
(modelled as the empty value of the field type). -/
structure PsAttrs where
  name : String
  exe : String
  cmdline : List String
deriving DecidableEq

/-- Raw per-attribute readability of a live process, before `ad_value`
filling: `none` means the attribute access failed (e.g. permission). -/
structure PsRaw where
  name : Option String
  exe : Option String
  cmdline : Option (List String)
deriving DecidableEq

/-- `as_dict` with `ad_value=""`. -/
def psAsDict (r : PsRaw) : PsAttrs :=
  { name := r.name.getD "", exe := r.exe.getD "", cmdline := r.cmdline.getD [] }

/-- `get_proc_info(pid)`: `psutil.Process(pid)` raises when no such process
exists; the surrounding `try/except` turns any exception into `None`.  The
live process table is the oracle `table`. -/
def get_proc_info (table : Nat → Option PsRaw) (pid : Nat) : Option PsAttrs :=
  match table pid with
  | none => none
  | some r => some (psAsDict r)

/-! ## Python-style reprs for error strings -/

/-- Python `repr` of a short plain string (the escaping rules for exotic
characters are not modelled; every string the daemon formats this way is a
process name, ip, or command line). -/
def pyReprStr (s : String) : String := String.mk ([sqC] ++ s.data ++ [sqC])

/-- One `'key': value` piece of a dict repr. -/
def pyKV (k v : String) : String := pyReprStr k ++ ": " ++ v

/-- Python `str` of a conn event dict, as interpolated into
`"no known process for conn: " + str(proc)` (after `missed` was popped). -/
def connRepr (c : ConnEv) : String :=
  "\x7b" ++ pyKV "type" (pyReprStr "conn") ++ ", " ++ pyKV "pid" (toString c.pid) ++
  ", " ++ pyKV "ppid" (toString c.ppid) ++ ", " ++ pyKV "name" (pyReprStr c.name) ++
  ", " ++ pyKV "port" (toString c.port) ++ ", " ++ pyKV "ip" (pyReprStr c.ip) ++ "\x7d"

/-- The error recorded when tokenizing an exec event raises `IndexError`
(`"Process queue " + type(e).__name__ + str(e.args) + str(proc)`; when the
first token is literally `exec` the dict also carries the partially assigned
`exe` key, not reproduced here). -/
def execFailMsg (ctime : String) (pid : Nat) (name cmdline : String) : String :=
  ctime ++ " Process queue IndexError(" ++ pyReprStr "list index out of range" ++
  ",)" ++ "\x7b" ++ pyKV "type" (pyReprStr "exec") ++ ", " ++
  pyKV "pid" (toString pid) ++ ", " ++ pyKV "name" (pyReprStr name) ++ ", " ++
  pyKV "cmdline" (pyReprStr cmdline) ++ "\x7d"

/-- The error recorded when a deferred conn exhausts its 5 rounds. -/
def dropMsg (ctime : String) (c : ConnEv) : String :=
  ctime ++ " no known process for conn: " ++ connRepr c

/-! ## `process_queue` -/

/-- An entry of `pending_list`: either an exec event queued because
`Only log connections` is false, or a conn event with its attached identity. -/
inductive PendProc
  | fromExec (p : ProcInfo)
  | fromConn (p : ProcInfo) (ip : String) (port : Int)
deriving DecidableEq

/-- Accumulator for the `for proc in new_processes` loop. -/
structure PQAcc where
  errors : List String
  kp : List (Nat × ProcInfo)
  pendingList : List PendProc
  pendingConns : List MissedConn
deriving DecidableEq

/-- The resolution attempt made for a conn event whose pid is not yet known
(`process_queue`, conn arm, inner try/except).  `resolve pid` stands for a
round trip through the psutil worker (`q_psutil_pending`/`q_psutil_results`),
i.e. `get_proc_info`; `none` makes `proc_psutil["exe"]` raise, entering the
ppid fallback, which is itself attempted only when the ppid is not already
known.  The cache key used for a worker result is its own `pid` attribute,
which psutil guarantees equals the queried pid.  On success the parent record
is cached both under the parent key and under the child key. -/
def connResolveKp (resolve : Nat → Option PsAttrs) (c : ConnEv)
    (kp : List (Nat × ProcInfo)) : List (Nat × ProcInfo) :=
  match resolve c.pid with
  | some a =>
    -- `if proc_psutil["exe"]:` — cache only a non-empty exe; no ppid
    -- fallback here (that runs only on an exception)
    if a.exe ≠ "" then alUp c.pid ⟨c.pid, a.name, a.exe, shlexJoin a.cmdline⟩ kp
    else kp
  | none =>
    if (alGet c.ppid kp).isNone then
      match resolve c.ppid with
      | some a =>
        if a.exe ≠ "" then
          alUp c.pid ⟨c.ppid, a.name, a.exe, shlexJoin a.cmdline⟩
            (alUp c.ppid ⟨c.ppid, a.name, a.exe, shlexJoin a.cmdline⟩ kp)
        else kp
      | none => kp
    else kp

/-- One iteration of the `for proc in new_processes` loop of `process_queue`. -/
def procEventStep (resolve : Nat → Option PsAttrs) (onlyLog : Bool) (ctime : String)
    (acc : PQAcc) : RawEvent → PQAcc
  | .ex pid name cmdline =>
    match execExe (tokenizeCmdline cmdline) with
    | none => { acc with errors := acc.errors ++ [execFailMsg ctime pid name cmdline] }
    | some exe =>
      let pr : ProcInfo := ⟨pid, name, exe, cmdline⟩
      if onlyLog then { acc with kp := alUp pid pr acc.kp }
      else { acc with kp := alUp pid pr acc.kp,
                      pendingList := acc.pendingList ++ [.fromExec pr] }
  | .conn c =>
    match alGet c.pid acc.kp with
    | some k =>
      { acc with pendingList :=
          acc.pendingList ++ [.fromConn ⟨c.pid, k.name, k.exe, k.cmdline⟩ c.ip c.port] }
    | none =>
      { acc with kp := connResolveKp resolve c acc.kp,
                 pendingConns := acc.pendingConns ++ [⟨c, 1⟩] }

/-- One iteration of the `for proc in missed_conns` loop: correlate if the pid
is now known, else re-defer while `missed < 5`, else drop with an error. -/
def missedStep (ctime : String) (kp : List (Nat × ProcInfo))
    (acc : List String × List PendProc × List MissedConn) (mc : MissedConn) :
    List String × List PendProc × List MissedConn :=
  match alGet mc.conn.pid kp with
  | some k =>
    (acc.1, acc.2.1 ++ [.fromConn ⟨mc.conn.pid, k.name, k.exe, k.cmdline⟩ mc.conn.ip mc.conn.port],
     acc.2.2)
  | none =>
    if mc.missed < 5 then (acc.1, acc.2.1, acc.2.2 ++ [⟨mc.conn, mc.missed + 1⟩])
    else (acc.1 ++ [dropMsg ctime mc.conn], acc.2.1, acc.2.2)

/-- An element of `update_snitch_pending`: `(proc, conn, ctime)` with
`conn = {"ip": ..., "port": ...}` (a synthetic `{"ip": "", "port": -1}` for
exec entries). -/
structure USPEntry where
  proc : ProcInfo
  ip : String
  port : Int
  ctime : String
deriving DecidableEq

/-- The final `for proc in pending_list` loop of `process_queue`. -/
def toUSP (ctime : String) : PendProc → USPEntry
  | .fromExec p => ⟨p, "", -1, ctime⟩
  | .fromConn p ip port => ⟨p, ip, port, ctime⟩

/-- The outputs of `process_queue`: the mutated `snitch["Errors"]` and
`known_pids`, and the returned `(pending_conns, update_snitch_pending)`. -/
structure PQResult where
  errors : List String
  kp : List (Nat × ProcInfo)
  pendingConns : List MissedConn
  usp : List USPEntry
deriving DecidableEq

/-- `process_queue`: the new-process loop, then the missed-conns loop (which
sees the `known_pids` left by the first loop and appends to the same
`pending_list` and `pending_conns`), then conversion to
`update_snitch_pending`. -/
def process_queue (resolve : Nat → Option PsAttrs) (onlyLog : Bool) (ctime : String)
    (errors : List String) (kp : List (Nat × ProcInfo))
    (missedConns : List MissedConn) (newProcesses : List RawEvent) : PQResult :=
  let a1 := newProcesses.foldl (procEventStep resolve onlyLog ctime) ⟨errors, kp, [], []⟩
  let m := missedConns.foldl (missedStep ctime a1.kp) (a1.errors, a1.pendingList, a1.pendingConns)
  ⟨m.1, a1.kp, m.2.2, m.2.1.map (toUSP ctime)⟩

/-! ## Lemmas about `process_queue` -/

theorem alGet_connResolveKp (resolve : Nat → Option PsAttrs) (c : ConnEv)
    (kp : List (Nat × ProcInfo)) (p : Nat) (v : ProcInfo)
    (hk : alGet p kp = some v) (hcp : c.pid ≠ p) :
    alGet p (connResolveKp resolve c kp) = some v := by
  unfold connResolveKp
  cases hr : resolve c.pid with
  | some a =>
    by_cases hx : a.exe = "" <;> simp [hx, hk, alGet_alUp_other _ _ _ _ hcp]
  | none =>
    cases hpp : alGet c.ppid kp with
    | some k2 => simp [hpp, hk]
    | none =>
      have hppne : c.ppid ≠ p := fun h => by rw [h, hk] at hpp; cases hpp
      cases hr2 : resolve c.ppid with
      | none => simp [hpp, hr2, hk]
      | some a =>
        by_cases hx : a.exe = "" <;>
          simp [hpp, hr2, hx, hk, alGet_alUp_other _ _ _ _ hcp,
            alGet_alUp_other _ _ _ _ hppne]

/-- A cached identity survives any event that is not an exec for its pid. -/
theorem alGet_procEventStep (resolve : Nat → Option PsAttrs) (onlyLog : Bool)
    (ctime : String) (acc : PQAcc) (ev : RawEvent) (p : Nat) (v : ProcInfo)
    (hk : alGet p acc.kp = some v)
    (hev : ∀ n cl, ev ≠ RawEvent.ex p n cl) :
    alGet p (procEventStep resolve onlyLog ctime acc ev).kp = some v := by
  cases ev with
  | ex pid n cl =>
    have hne : pid ≠ p := fun h => hev n cl (by rw [h])
    simp only [procEventStep]
    cases hx : execExe (tokenizeCmdline cl) with
    | none => simpa using hk
    | some exe =>
      by_cases ho : onlyLog <;> simp [ho, alGet_alUp_other _ _ _ _ hne, hk]
  | conn c =>
    simp only [procEventStep]
    cases hc : alGet c.pid acc.kp with
    | some k => simpa using hk
    | none =>
      have hcp : c.pid ≠ p := fun h => by rw [h, hk] at hc; cases hc
      simpa using alGet_connResolveKp resolve c acc.kp p v hk hcp

theorem alGet_procEventStep_foldl (resolve : Nat → Option PsAttrs) (onlyLog : Bool)
    (ctime : String) (evs : List RawEvent) (acc : PQAcc) (p : Nat) (v : ProcInfo)
    (hk : alGet p acc.kp = some v)
    (hev : ∀ ev ∈ evs, ∀ n cl, ev ≠ RawEvent.ex p n cl) :
    alGet p ((evs.foldl (procEventStep resolve onlyLog ctime) acc).kp) = some v := by
  induction evs generalizing acc with
  | nil => simpa using hk
  | cons e es ih =>
    simp only [List.foldl_cons]
    exact ih _
      (alGet_procEventStep resolve onlyLog ctime acc e p v hk
        (hev e (List.mem_cons_self e es)))
      (fun ev hm => hev ev (List.mem_cons_of_mem e hm))

/-- A successfully tokenized exec event installs its identity in
`known_pids`. -/
theorem alGet_exec_step (resolve : Nat → Option PsAttrs) (onlyLog : Bool)
    (ctime : String) (acc : PQAcc) (pid : Nat) (n cl exe : String)
    (hx : execExe (tokenizeCmdline cl) = some exe) :
    alGet pid (procEventStep resolve onlyLog ctime acc (RawEvent.ex pid n cl)).kp
      = some ⟨pid, n, exe, cl⟩ := by
  simp only [procEventStep, hx]
  by_cases ho : onlyLog <;> simp [ho, alGet_alUp_self]

/-- A conn event whose pid is known is queued with the cached identity. -/
theorem pendingList_conn_step (resolve : Nat → Option PsAttrs) (onlyLog : Bool)
    (ctime : String) (acc : PQAcc) (c : ConnEv) (k : ProcInfo)
    (hk : alGet c.pid acc.kp = some k) :
    (procEventStep resolve onlyLog ctime acc (RawEvent.conn c)).pendingList
      = acc.pendingList ++ [PendProc.fromConn ⟨c.pid, k.name, k.exe, k.cmdline⟩ c.ip c.port] := by
  simp [procEventStep, hk]

/-- Steps only ever append to `pending_list`. -/
theorem mem_pendingList_procEventStep (resolve : Nat → Option PsAttrs) (onlyLog : Bool)
    (ctime : String) (acc : PQAcc) (ev : RawEvent) (x : PendProc)
    (hx : x ∈ acc.pendingList) :
    x ∈ (procEventStep resolve onlyLog ctime acc ev).pendingList := by
  cases ev with
  | ex pid n cl =>
    simp only [procEventStep]
    cases execExe (tokenizeCmdline cl) with
    | none => simpa using hx
    | some exe => by_cases ho : onlyLog <;> simp [ho, hx]
  | conn c =>
    simp only [procEventStep]
    cases alGet c.pid acc.kp <;> simp [hx]

theorem mem_pendingList_procEventStep_foldl (resolve : Nat → Option PsAttrs)
    (onlyLog : Bool) (ctime : String) (evs : List RawEvent) (acc : PQAcc) (x : PendProc)
    (hx : x ∈ acc.pendingList) :
    x ∈ (evs.foldl (procEventStep resolve onlyLog ctime) acc).pendingList := by
  induction evs generalizing acc with
  | nil => simpa using hx
  | cons e es ih =>
    simp only [List.foldl_cons]
    exact ih _ (mem_pendingList_procEventStep resolve onlyLog ctime acc e x hx)

/-- The missed-conns loop also only appends to `pending_list`. -/
theorem mem_pl_missedStep_foldl (ctime : String) (kp : List (Nat × ProcInfo))
    (mcs : List MissedConn) (a : List String × List PendProc × List MissedConn)
    (x : PendProc) (hx : x ∈ a.2.1) :
    x ∈ (mcs.foldl (missedStep ctime kp) a).2.1 := by
  induction mcs generalizing a with
  | nil => simpa using hx
  | cons m ms ih =>
    simp only [List.foldl_cons]
    apply ih
    simp only [missedStep]
    cases alGet m.conn.pid kp with
    | some k => simp [hx]
    | none =>
      by_cases hm : m.missed < 5 <;> simp [hm, hx]

/-- Anything in `pending_list` after the batch loop ends up in
`update_snitch_pending`. -/
theorem mem_usp_of_mem_pendingList (resolve : Nat → Option PsAttrs) (onlyLog : Bool)
    (ctime : String) (errors : List String) (kp : List (Nat × ProcInfo))
    (mcs : List MissedConn) (evs : List RawEvent) (x : PendProc)
    (hx : x ∈ (evs.foldl (procEventStep resolve onlyLog ctime) ⟨errors, kp, [], []⟩).pendingList) :
    toUSP ctime x ∈ (process_queue resolve onlyLog ctime errors kp mcs evs).usp := by
  show toUSP ctime x ∈
    (mcs.foldl (missedStep ctime (evs.foldl (procEventStep resolve onlyLog ctime) ⟨errors, kp, [], []⟩).kp)
      ((evs.foldl (procEventStep resolve onlyLog ctime) ⟨errors, kp, [], []⟩).errors,
       (evs.foldl (procEventStep resolve onlyLog ctime) ⟨errors, kp, [], []⟩).pendingList,
       (evs.foldl (procEventStep resolve onlyLog ctime) ⟨errors, kp, [], []⟩).pendingConns)).2.1.map
      (toUSP ctime)
  exact List.mem_map_of_mem (toUSP ctime)
    (mem_pl_missedStep_foldl ctime _ mcs _ x hx)

/-! ## Claim theorems concerning `process_queue` -/

/-- C2.  Within one updater iteration, a conn event whose pid matches an exec
event occurring earlier in the same batch (with no later exec for the same pid
in between) is queued for `update_snitch` in that same iteration, carrying the
name, exe and cmdline recorded from that exec event. -/
theorem conn_correlated_same_batch
    (resolve : Nat → Option PsAttrs) (onlyLog : Bool) (ctime : String)
    (errors : List String) (kp : List (Nat × ProcInfo)) (mcs : List MissedConn)
    (b1 b2 b3 : List RawEvent) (p : Nat) (n cmd exe : String) (c : ConnEv)
    (hpid : c.pid = p)
    (hexe : execExe (tokenizeCmdline cmd) = some exe)
    (hmid : ∀ ev ∈ b2, ∀ n2 cl2, ev ≠ RawEvent.ex p n2 cl2) :
    USPEntry.mk ⟨p, n, exe, cmd⟩ c.ip c.port ctime ∈
      (process_queue resolve onlyLog ctime errors kp mcs
        (b1 ++ RawEvent.ex p n cmd :: (b2 ++ RawEvent.conn c :: b3))).usp := by
  have hstep : toUSP ctime (PendProc.fromConn ⟨p, n, exe, cmd⟩ c.ip c.port)
      = USPEntry.mk ⟨p, n, exe, cmd⟩ c.ip c.port ctime := rfl
  rw [← hstep]
  apply mem_usp_of_mem_pendingList
  rw [List.foldl_append, List.foldl_cons, List.foldl_append, List.foldl_cons]
  set acc0 := b1.foldl (procEventStep resolve onlyLog ctime) ⟨errors, kp, [], []⟩ with hacc0
  set acc1 := procEventStep resolve onlyLog ctime acc0 (RawEvent.ex p n cmd) with hacc1
  set acc2 := b2.foldl (procEventStep resolve onlyLog ctime) acc1 with hacc2
  have h1 : alGet p acc1.kp = some ⟨p, n, exe, cmd⟩ :=
    alGet_exec_step resolve onlyLog ctime acc0 p n cmd exe hexe
  have h2 : alGet p acc2.kp = some ⟨p, n, exe, cmd⟩ :=
    alGet_procEventStep_foldl resolve onlyLog ctime b2 acc1 p _ h1 hmid
  have h2c : alGet c.pid acc2.kp = some ⟨p, n, exe, cmd⟩ := by rwa [hpid]
  have h3 :
      (procEventStep resolve onlyLog ctime acc2 (RawEvent.conn c)).pendingList
        = acc2.pendingList ++ [PendProc.fromConn ⟨c.pid, n, exe, cmd⟩ c.ip c.port] :=
    pendingList_conn_step resolve onlyLog ctime acc2 c _ h2c
  apply mem_pendingList_procEventStep_foldl
  rw [h3, hpid]
  simp

/-- C10.  A conn event whose pid is absent from `known_pids` when it is
examined is appended to the deferred queue with `missed = 1` and contributes
nothing to `update_snitch_pending` in its arrival iteration, even when the
on-demand psutil resolution succeeds — success only populates `known_pids`
(shown in the last conjunct), so the connection can be applied no earlier
than the following iteration. -/
theorem conn_deferred_on_arrival
    (resolve : Nat → Option PsAttrs) (onlyLog : Bool) (ctime : String)
    (errors : List String) (kp : List (Nat × ProcInfo)) (c : ConnEv)
    (h : alGet c.pid kp = none) :
    (process_queue resolve onlyLog ctime errors kp [] [RawEvent.conn c]).usp = [] ∧
    (process_queue resolve onlyLog ctime errors kp [] [RawEvent.conn c]).pendingConns
      = [⟨c, 1⟩] ∧
    (process_queue resolve onlyLog ctime errors kp [] [RawEvent.conn c]).errors = errors ∧
    (process_queue resolve onlyLog ctime errors kp [] [RawEvent.conn c]).kp
      = connResolveKp resolve c kp ∧
    (∀ a, resolve c.pid = some a → a.exe ≠ "" →
      alGet c.pid (process_queue resolve onlyLog ctime errors kp [] [RawEvent.conn c]).kp
        = some ⟨c.pid, a.name, a.exe, shlexJoin a.cmdline⟩) := by
  have hpq : process_queue resolve onlyLog ctime errors kp [] [RawEvent.conn c]
      = ⟨errors, connResolveKp resolve c kp, [⟨c, 1⟩], []⟩ := by
    simp [process_queue, procEventStep, h]
  refine ⟨by rw [hpq], by rw [hpq], by rw [hpq], by rw [hpq], ?_⟩
  intro a ha hx
  rw [hpq]
  simp [connResolveKp, ha, hx, alGet_alUp_self]

/-- Closed witness for C10: a conn for an unknown pid whose resolution
succeeds is still deferred with `missed = 1` and not applied this round. -/
theorem conn_deferred_on_arrival_witness :
    (process_queue (fun q => if q = 300 then some ⟨"curl", "/usr/bin/curl", ["curl"]⟩ else none)
        true "Mon Jan  1 00:00:00 2024" [] [] [] [RawEvent.conn ⟨300, 1, "curl", 443, "93.184.216.34"⟩]).usp = [] ∧
    (process_queue (fun q => if q = 300 then some ⟨"curl", "/usr/bin/curl", ["curl"]⟩ else none)
        true "Mon Jan  1 00:00:00 2024" [] [] [] [RawEvent.conn ⟨300, 1, "curl", 443, "93.184.216.34"⟩]).pendingConns
      = [⟨⟨300, 1, "curl", 443, "93.184.216.34"⟩, 1⟩] ∧
    alGet 300 (process_queue (fun q => if q = 300 then some ⟨"curl", "/usr/bin/curl", ["curl"]⟩ else none)
        true "Mon Jan  1 00:00:00 2024" [] [] [] [RawEvent.conn ⟨300, 1, "curl", 443, "93.184.216.34"⟩]).kp
      = some ⟨300, "curl", "/usr/bin/curl", "curl"⟩ := by
  have h := conn_deferred_on_arrival
    (fun q => if q = 300 then some ⟨"curl", "/usr/bin/curl", ["curl"]⟩ else none)
    true "Mon Jan  1 00:00:00 2024" [] [] ⟨300, 1, "curl", 443, "93.184.216.34"⟩ rfl
  refine ⟨h.1, h.2.1, ?_⟩
  have := h.2.2.2.2 ⟨"curl", "/usr/bin/curl", ["curl"]⟩ (by decide) (by decide)
  simpa [shlexJoin, shlexQuote] using this

/-- Closed witness for C2: an exec for pid 100 followed in the same batch by a
conn for pid 100 is correlated in the same iteration with the exec
identity. -/
theorem conn_correlated_same_batch_witness :
    USPEntry.mk ⟨100, "curl", "curl", "curl https://example.com"⟩ "93.184.216.34" 443
        "Mon Jan  1 00:00:00 2024" ∈
      (process_queue (fun _ => none) true "Mon Jan  1 00:00:00 2024" [] [] []
        ([] ++ RawEvent.ex 100 "curl" "curl https://example.com" ::
          ([] ++ RawEvent.conn ⟨100, 1, "curl", 443, "93.184.216.34"⟩ :: []))).usp :=
  conn_correlated_same_batch (fun _ => none) true "Mon Jan  1 00:00:00 2024" [] [] []
    [] [] [] 100 "curl" "curl https://example.com" "curl"
    ⟨100, 1, "curl", 443, "93.184.216.34"⟩ rfl (by decide) (by intro ev h; cases h)

/-- C5.  An exec event command line is tokenized by `shlex.split`, falling
back to a whitespace split when that raises; the exe recorded in
`known_pids` is the first token, or the second when the first is literally
`exec`. -/
theorem exec_cmdline_tokenization
    (resolve : Nat → Option PsAttrs) (onlyLog : Bool) (ctime : String)
    (errors : List String) (kp : List (Nat × ProcInfo))
    (pid : Nat) (name cmdline : String) :
    (∀ ts, shlexSplitPy cmdline = some ts → tokenizeCmdline cmdline = ts) ∧
    (shlexSplitPy cmdline = none → tokenizeCmdline cmdline = pySplitWs cmdline) ∧
    (∀ e rest, tokenizeCmdline cmdline = e :: rest → e ≠ "exec" →
      alGet pid (process_queue resolve onlyLog ctime errors kp []
          [RawEvent.ex pid name cmdline]).kp = some ⟨pid, name, e, cmdline⟩) ∧
    (∀ e2 rest, tokenizeCmdline cmdline = "exec" :: e2 :: rest →
      alGet pid (process_queue resolve onlyLog ctime errors kp []
          [RawEvent.ex pid name cmdline]).kp = some ⟨pid, name, e2, cmdline⟩) := by
  have hkp : ∀ ev, (process_queue resolve onlyLog ctime errors kp [] [ev]).kp
      = (procEventStep resolve onlyLog ctime ⟨errors, kp, [], []⟩ ev).kp := by
    intro ev; simp [process_queue]
  refine ⟨?_, ?_, ?_, ?_⟩
  · intro ts h; simp [tokenizeCmdline, h]
  · intro h; simp [tokenizeCmdline, h]
  · intro e rest h he
    have hx : execExe (tokenizeCmdline cmdline) = some e := by
      simp [h, execExe, he]
    rw [hkp]
    exact alGet_exec_step resolve onlyLog ctime _ pid name cmdline e hx
  · intro e2 rest h
    have hx : execExe (tokenizeCmdline cmdline) = some e2 := by
      simp [h, execExe]
    rw [hkp]
    exact alGet_exec_step resolve onlyLog ctime _ pid name cmdline e2 hx

/-- Closed witness for C5: the `exec`-prefixed command line records the second
token, and a command line that makes `shlex.split` raise (trailing escape)
falls back to the whitespace split. -/
theorem exec_cmdline_tokenization_witness :
    alGet 7 (process_queue (fun _ => none) true "T" [] [] []
        [RawEvent.ex 7 "sh" "exec /bin/sh -c ls"]).kp
      = some ⟨7, "sh", "/bin/sh", "exec /bin/sh -c ls"⟩ ∧
    tokenizeCmdline "ls x\\" = pySplitWs "ls x\\" := by
  constructor
  · exact (exec_cmdline_tokenization (fun _ => none) true "T" [] [] 7 "sh"
      "exec /bin/sh -c ls").2.2.2 "/bin/sh" ["-c", "ls"] (by decide)
  · exact (exec_cmdline_tokenization (fun _ => none) true "T" [] [] 7 "sh"
      "ls x\\").2.1 (by decide)

/-- C8 (amended).  `get_proc_info` returns `None` — not an empty-path
identity — when the process-table lookup fails; an empty-path identity arises
only for a live process whose `exe` attribute is unreadable, via
`ad_value=""`. -/
theorem get_proc_info_none_on_missing (table : Nat → Option PsRaw) (pid : Nat) :
    (table pid = none → get_proc_info table pid = none) ∧
    (∀ r, table pid = some r →
      get_proc_info table pid = some (psAsDict r) ∧
      (r.exe = none → (psAsDict r).exe = "")) := by
  constructor
  · intro h; simp [get_proc_info, h]
  · intro r h
    refine ⟨by simp [get_proc_info, h], ?_⟩
    intro hx; simp [psAsDict, hx]

/-- C8 counterexample: with an empty process table (no such pid),
`get_proc_info` returns `none`, so it does not return an identity record with
an empty path as the claim states. -/
theorem get_proc_info_counterexample :
    get_proc_info (fun _ => none) 1234 = none ∧
    ¬ (∃ r, get_proc_info (fun _ => none) 1234 = some r ∧ r.exe = "") := by
  constructor
  · rfl
  · rintro ⟨r, hr, _⟩
    simp [get_proc_info] at hr

/-- Closed witness for the amended C8. -/
theorem get_proc_info_none_on_missing_witness :
    get_proc_info (fun q => if q = 5 then some ⟨some "kthreadd", none, some []⟩ else none) 6
      = none ∧
    get_proc_info (fun q => if q = 5 then some ⟨some "kthreadd", none, some []⟩ else none) 5
      = some ⟨"kthreadd", "", []⟩ := by
  constructor
  · exact (get_proc_info_none_on_missing
      (fun q => if q = 5 then some ⟨some "kthreadd", none, some []⟩ else none) 6).1 (by decide)
  · exact ((get_proc_info_none_on_missing
      (fun q => if q = 5 then some ⟨some "kthreadd", none, some []⟩ else none) 5).2
        ⟨some "kthreadd", none, some []⟩ (by decide)).1

/-! ## `difflib` (SequenceMatcher, get_close_matches)

A faithful model of the parts of CPython `difflib` used by
`get_common_pattern`: `SequenceMatcher.get_matching_blocks` / `.ratio` /
`.quick_ratio` / `.real_quick_ratio` over sequences of characters, and
`get_close_matches` with `n=1`.  Float ratios are modelled by exact
fraction comparisons; for a cutoff of 0.8 the float comparison
`2*M/T >= 0.8` agrees with the exact one for every sequence length the
daemon can encounter (the two can only disagree when `T` exceeds roughly
`10^15`). -/

/-- A placeholder character for out-of-range `getD` reads (every read is
guarded by a bounds test). -/
def nulC : Char := Char.ofNat 0

/-- The ascending list of indices at which `c` occurs in `b` (the `b2j`
entry before junk removal). -/
def charIdxs (b : List Char) (c : Char) : List Nat :=
  (List.range b.length).filter (fun i => b.getD i nulC = c)

/-- The autojunk rule: with `autojunk` and `len(b) >= 200`, characters
occurring more than `len(b) // 100 + 1` times are *popular* and treated as
junk. -/
def isPopular (autojunk : Bool) (b : List Char) (c : Char) : Bool :=
  autojunk && decide (200 ≤ b.length) && decide (b.length / 100 + 1 < b.count c)

/-- `b2j` after junk removal: popular characters map to no indices. -/
def b2jGet (autojunk : Bool) (b : List Char) (c : Char) : List Nat :=
  if isPopular autojunk b c then [] else charIdxs b c

/-- The running best of `find_longest_match`. -/
structure FlmSt where
  besti : Nat
  bestj : Nat
  bestsize : Nat
deriving DecidableEq

/-- Inner loop of `find_longest_match` over the `b2j` indices of row `i`
(already filtered to `blo ≤ j < bhi`): builds `newj2len` and updates the best
block on a strict improvement (so earlier `i`, then earlier `j`, wins
ties). -/
def flmInner (j2len : Nat → Nat) (i : Nat) :
    List Nat → (Nat → Nat) → FlmSt → ((Nat → Nat) × FlmSt)
  | [], nj, st => (nj, st)
  | j :: js, nj, st =>
    let k := (if j = 0 then 0 else j2len (j - 1)) + 1
    let nj2 := fun j2 => if j2 = j then k else nj j2
    let st2 := if st.bestsize < k then FlmSt.mk (i + 1 - k) (j + 1 - k) k else st
    flmInner j2len i js nj2 st2

/-- Outer loop of `find_longest_match` over rows `i = alo, ..., ahi-1`
(`cnt` counts the remaining rows). -/
def flmRows (b2jf : Char → List Nat) (a : List Char) (blo bhi : Nat) :
    Nat → Nat → (Nat → Nat) → FlmSt → FlmSt
  | _, 0, _, st => st
  | i, cnt+1, j2len, st =>
    let js := (b2jf (a.getD i nulC)).filter (fun j => decide (blo ≤ j) && decide (j < bhi))
    let r := flmInner j2len i js (fun _ => 0) st
    flmRows b2jf a blo bhi (i + 1) cnt r.1 r.2

/-- A fueled while-loop for the four block-extension loops of
`find_longest_match`; the fuel is chosen at each call site to dominate the
number of iterations, so the loop always exits via its condition. -/
def extLoop (cond : FlmSt → Bool) (next : FlmSt → FlmSt) : Nat → FlmSt → FlmSt
  | 0, st => st
  | f+1, st => if cond st then extLoop cond next f (next st) else st

/-- `SequenceMatcher.find_longest_match(alo, ahi, blo, bhi)`: dynamic
programming over rows, then extension by adjacent non-junk matches, then by
adjacent junk matches.  The extension loops test `isbjunk`, membership in
`self.bjunk` — the set of elements the `isjunk` *function* flagged.  Every
matcher the daemon builds passes `isjunk=None`, so `bjunk` is empty and the
junk test is constantly false: autojunk popularity prunes `b2j` (the
dynamic-programming phase) but puts the popular characters in `bpopular`,
never in `bjunk`, so the non-junk loops extend straight through them and
the junk loops never fire. -/
def find_longest_match (autojunk : Bool) (a b : List Char)
    (alo ahi blo bhi : Nat) : FlmSt :=
  let junk := fun _ : Char => false
  let st0 := flmRows (b2jGet autojunk b) a blo bhi alo (ahi - alo) (fun _ => 0)
    (FlmSt.mk alo blo 0)
  let down := fun st : FlmSt => FlmSt.mk (st.besti - 1) (st.bestj - 1) (st.bestsize + 1)
  let grow := fun st : FlmSt => FlmSt.mk st.besti st.bestj (st.bestsize + 1)
  let frontC := fun (junkiness : Bool) (st : FlmSt) =>
    decide (alo < st.besti) && decide (blo < st.bestj) &&
    (junk (b.getD (st.bestj - 1) nulC) = junkiness) &&
    decide (a.getD (st.besti - 1) nulC = b.getD (st.bestj - 1) nulC)
  let backC := fun (junkiness : Bool) (st : FlmSt) =>
    decide (st.besti + st.bestsize < ahi) && decide (st.bestj + st.bestsize < bhi) &&
    (junk (b.getD (st.bestj + st.bestsize) nulC) = junkiness) &&
    decide (a.getD (st.besti + st.bestsize) nulC = b.getD (st.bestj + st.bestsize) nulC)
  let st1 := extLoop (frontC false) down st0.besti st0
  let st2 := extLoop (backC false) grow ahi st1
  let st3 := extLoop (frontC true) down st2.besti st2
  extLoop (backC true) grow ahi st3

/-- The interval bounds maintained by `find_longest_match`. -/
def FlmInv (alo ahi blo bhi : Nat) (st : FlmSt) : Prop :=
  alo ≤ st.besti ∧ blo ≤ st.bestj ∧ st.besti + st.bestsize ≤ ahi ∧
    st.bestj + st.bestsize ≤ bhi

/-- The invariant of a `j2len`-style row dictionary: nonzero values sit at
keys in `[blo, ...)` and bound both the number of processed rows and the
distance to `blo`. -/
def RowInv (alo blo rowEnd : Nat) (f : Nat → Nat) : Prop :=
  ∀ j, f j = 0 ∨ (blo ≤ j ∧ f j ≤ rowEnd - alo ∧ f j + blo ≤ j + 1)

theorem flmInner_main (j2len : Nat → Nat) (alo ahi blo bhi i : Nat)
    (hi1 : alo ≤ i) (hi2 : i < ahi)
    (hj2 : RowInv alo blo i j2len) :
    ∀ (js : List Nat) (nj : Nat → Nat) (st : FlmSt),
    (∀ j ∈ js, blo ≤ j ∧ j < bhi) →
    RowInv alo blo (i + 1) nj →
    FlmInv alo ahi blo bhi st →
    FlmInv alo ahi blo bhi (flmInner j2len i js nj st).2 ∧
      RowInv alo blo (i + 1) (flmInner j2len i js nj st).1 := by
  intro js
  induction js with
  | nil => intro nj st _ hnj hst; exact ⟨hst, hnj⟩
  | cons j js ih =>
    intro nj st hjs hnj hst
    have hjmem := hjs j (List.mem_cons_self j js)
    simp only [flmInner]
    set k : Nat := (if j = 0 then 0 else j2len (j - 1)) + 1 with hkdef
    have hkb : k + alo ≤ i + 1 ∧ k + blo ≤ j + 1 := by
      rw [hkdef]
      by_cases hj0 : j = 0
      · have h00 : (if j = 0 then 0 else j2len (j - 1)) = 0 := if_pos hj0
        rw [h00]
        omega
      · rw [if_neg hj0]
        rcases hj2 (j - 1) with h0 | ⟨hb, hle, hsum⟩
        · rw [h0]; omega
        · omega
    refine ih _ _ (fun j2 h => hjs j2 (List.mem_cons_of_mem _ h)) ?_ ?_
    · intro j2
      dsimp only
      by_cases hjj : j2 = j
      · subst hjj
        right
        rw [if_pos rfl]
        exact ⟨hjmem.1, by omega, by omega⟩
      · rw [if_neg hjj]
        exact hnj j2
    · by_cases hlt : st.bestsize < k
      · rw [if_pos hlt]
        obtain ⟨hst1, hst2, hst3, hst4⟩ := hst
        refine ⟨?_, ?_, ?_, ?_⟩ <;> dsimp only <;> omega
      · rw [if_neg hlt]
        exact hst

theorem flmRows_inv (b2jf : Char → List Nat) (a : List Char)
    (alo ahi blo bhi : Nat) (cnt : Nat) :
    ∀ (i : Nat) (j2len : Nat → Nat) (st : FlmSt),
    alo ≤ i → i + cnt = ahi →
    RowInv alo blo i j2len →
    FlmInv alo ahi blo bhi st →
    FlmInv alo ahi blo bhi (flmRows b2jf a blo bhi i cnt j2len st) := by
  induction cnt with
  | zero => intro i j2len st _ _ _ hst; exact hst
  | succ cnt ih =>
    intro i j2len st hi hcnt hj2 hst
    simp only [flmRows]
    have hjs : ∀ j ∈ (b2jf (a.getD i nulC)).filter
        (fun j => decide (blo ≤ j) && decide (j < bhi)), blo ≤ j ∧ j < bhi := by
      intro j hj
      have := List.of_mem_filter hj
      simp only [Bool.and_eq_true, decide_eq_true_eq] at this
      exact this
    have hmain := flmInner_main j2len alo ahi blo bhi i hi (by omega) hj2
      ((b2jf (a.getD i nulC)).filter (fun j => decide (blo ≤ j) && decide (j < bhi)))
      (fun _ => 0) st hjs (fun j => Or.inl rfl) hst
    exact ih (i + 1) _ _ (by omega) (by omega) hmain.2 hmain.1

theorem extLoop_inv (P : FlmSt → Prop) (cond : FlmSt → Bool) (next : FlmSt → FlmSt)
    (hpres : ∀ s, cond s = true → P s → P (next s)) :
    ∀ (fuel : Nat) (st : FlmSt), P st → P (extLoop cond next fuel st) := by
  intro fuel
  induction fuel with
  | zero => intro st h; exact h
  | succ f ih =>
    intro st h
    simp only [extLoop]
    split
    · exact ih _ (hpres st (by assumption) h)
    · exact h

/-- `find_longest_match` returns a block inside the requested intervals. -/
theorem find_longest_match_inv (autojunk : Bool) (a b : List Char)
    (alo ahi blo bhi : Nat) (ha : alo ≤ ahi) (hb : blo ≤ bhi) :
    FlmInv alo ahi blo bhi (find_longest_match autojunk a b alo ahi blo bhi) := by
  unfold find_longest_match
  have hdown : ∀ (junkiness : Bool) (s : FlmSt),
      (decide (alo < s.besti) && decide (blo < s.bestj) &&
        ((false : Bool) = junkiness) &&
        decide (a.getD (s.besti - 1) nulC = b.getD (s.bestj - 1) nulC)) = true →
      FlmInv alo ahi blo bhi s →
      FlmInv alo ahi blo bhi (FlmSt.mk (s.besti - 1) (s.bestj - 1) (s.bestsize + 1)) := by
    intro junkiness s hc hs
    simp only [Bool.and_eq_true, decide_eq_true_eq] at hc
    obtain ⟨⟨⟨hc1, hc2⟩, _⟩, _⟩ := hc
    obtain ⟨h1, h2, h3, h4⟩ := hs
    refine ⟨?_, ?_, ?_, ?_⟩ <;> dsimp only <;> omega
  have hgrow : ∀ (junkiness : Bool) (s : FlmSt),
      (decide (s.besti + s.bestsize < ahi) && decide (s.bestj + s.bestsize < bhi) &&
        ((false : Bool) = junkiness) &&
        decide (a.getD (s.besti + s.bestsize) nulC = b.getD (s.bestj + s.bestsize) nulC)) = true →
      FlmInv alo ahi blo bhi s →
      FlmInv alo ahi blo bhi (FlmSt.mk s.besti s.bestj (s.bestsize + 1)) := by
    intro junkiness s hc hs
    simp only [Bool.and_eq_true, decide_eq_true_eq] at hc
    obtain ⟨⟨⟨hc1, hc2⟩, _⟩, _⟩ := hc
    obtain ⟨h1, h2, h3, h4⟩ := hs
    refine ⟨?_, ?_, ?_, ?_⟩ <;> dsimp only <;> omega
  have h0 : FlmInv alo ahi blo bhi
      (flmRows (b2jGet autojunk b) a blo bhi alo (ahi - alo) (fun _ => 0)
        (FlmSt.mk alo blo 0)) := by
    apply flmRows_inv (b2jGet autojunk b) a alo ahi blo bhi (ahi - alo) alo
      (fun _ => 0) (FlmSt.mk alo blo 0) (le_refl alo) (by omega)
      (fun j => Or.inl rfl)
    refine ⟨?_, ?_, ?_, ?_⟩ <;> dsimp only <;> omega
  apply extLoop_inv _ _ _ (hgrow true)
  apply extLoop_inv _ _ _ (hdown true)
  apply extLoop_inv _ _ _ (hgrow false)
  apply extLoop_inv _ _ _ (hdown false)
  exact h0

/-- The recursion of `get_matching_blocks`: the maximal block of the
interval, with the blocks of the left and right subintervals around it.  The
reference implementation uses an explicit work queue and then sorts; the
recursion visits the same subintervals and emits the same blocks in ascending
order directly.  The recursion is fueled so that it evaluates by kernel
reduction; `matchingBlocksRec_stable` below shows that any fuel above the
interval measure `(ahi - alo) + (bhi - blo)` — in particular the
`a.length + b.length + 1` used by `get_matching_blocks` — gives the same
result, so the fuel never runs out on a reachable call. -/
def matchingBlocksRec (autojunk : Bool) (a b : List Char) :
    Nat → Nat → Nat → Nat → Nat → List (Nat × Nat × Nat)
  | 0, _, _, _, _ => []
  | fuel+1, alo, ahi, blo, bhi =>
    let st := find_longest_match autojunk a b alo ahi blo bhi
    if st.bestsize = 0 then []
    else
      (if alo < st.besti ∧ blo < st.bestj then
        matchingBlocksRec autojunk a b fuel alo st.besti blo st.bestj
      else []) ++
      (st.besti, st.bestj, st.bestsize) ::
      (if st.besti + st.bestsize < ahi ∧ st.bestj + st.bestsize < bhi then
        matchingBlocksRec autojunk a b fuel (st.besti + st.bestsize) ahi
          (st.bestj + st.bestsize) bhi
      else [])

/-- Fuel above the interval measure is irrelevant: every level strictly
shrinks the measure (by `find_longest_match_inv`), so the recursion always
exits through the `bestsize = 0` or subinterval tests, never through
exhausted fuel. -/
theorem matchingBlocksRec_stable (autojunk : Bool) (a b : List Char) :
    ∀ (f : Nat), ∀ (alo ahi blo bhi : Nat),
    alo ≤ ahi → blo ≤ bhi → (ahi - alo) + (bhi - blo) < f →
    matchingBlocksRec autojunk a b f alo ahi blo bhi
      = matchingBlocksRec autojunk a b ((ahi - alo) + (bhi - blo) + 1) alo ahi blo bhi := by
  intro f
  induction f using Nat.strong_induction_on with
  | _ f ih =>
    intro alo ahi blo bhi ha hb hm
    match f, hm with
    | fuel+1, hm =>
      obtain ⟨h1, h2, h3, h4⟩ := find_longest_match_inv autojunk a b alo ahi blo bhi ha hb
      simp only [matchingBlocksRec]
      by_cases hk : (find_longest_match autojunk a b alo ahi blo bhi).bestsize = 0
      · simp [hk]
      · simp only [hk, if_neg hk]
        have hleft : (alo < (find_longest_match autojunk a b alo ahi blo bhi).besti ∧
            blo < (find_longest_match autojunk a b alo ahi blo bhi).bestj) →
            matchingBlocksRec autojunk a b fuel alo
              (find_longest_match autojunk a b alo ahi blo bhi).besti blo
              (find_longest_match autojunk a b alo ahi blo bhi).bestj
            = matchingBlocksRec autojunk a b ((ahi - alo) + (bhi - blo)) alo
              (find_longest_match autojunk a b alo ahi blo bhi).besti blo
              (find_longest_match autojunk a b alo ahi blo bhi).bestj := by
          intro hcond
          rw [ih fuel (by omega) _ _ _ _ (by omega) (by omega) (by omega),
            ih ((ahi - alo) + (bhi - blo)) (by omega) _ _ _ _ (by omega) (by omega)
              (by omega)]
        have hright : ((find_longest_match autojunk a b alo ahi blo bhi).besti +
              (find_longest_match autojunk a b alo ahi blo bhi).bestsize < ahi ∧
            (find_longest_match autojunk a b alo ahi blo bhi).bestj +
              (find_longest_match autojunk a b alo ahi blo bhi).bestsize < bhi) →
            matchingBlocksRec autojunk a b fuel
              ((find_longest_match autojunk a b alo ahi blo bhi).besti +
                (find_longest_match autojunk a b alo ahi blo bhi).bestsize) ahi
              ((find_longest_match autojunk a b alo ahi blo bhi).bestj +
                (find_longest_match autojunk a b alo ahi blo bhi).bestsize) bhi
            = matchingBlocksRec autojunk a b ((ahi - alo) + (bhi - blo))
              ((find_longest_match autojunk a b alo ahi blo bhi).besti +
                (find_longest_match autojunk a b alo ahi blo bhi).bestsize) ahi
              ((find_longest_match autojunk a b alo ahi blo bhi).bestj +
                (find_longest_match autojunk a b alo ahi blo bhi).bestsize) bhi := by
          intro hcond
          rw [ih fuel (by omega) _ _ _ _ (by omega) (by omega) (by omega),
            ih ((ahi - alo) + (bhi - blo)) (by omega) _ _ _ _ (by omega) (by omega)
              (by omega)]
        by_cases hc1 : alo < (find_longest_match autojunk a b alo ahi blo bhi).besti ∧
            blo < (find_longest_match autojunk a b alo ahi blo bhi).bestj <;>
          by_cases hc2 : (find_longest_match autojunk a b alo ahi blo bhi).besti +
                (find_longest_match autojunk a b alo ahi blo bhi).bestsize < ahi ∧
              (find_longest_match autojunk a b alo ahi blo bhi).bestj +
                (find_longest_match autojunk a b alo ahi blo bhi).bestsize < bhi <;>
          simp [hc1, hc2, hleft, hright]

/-- The adjacent-block merge pass at the end of `get_matching_blocks`
(`i1, j1, k1 = 0, 0, 0` then fold). -/
def mergeAdj : (Nat × Nat × Nat) → List (Nat × Nat × Nat) → List (Nat × Nat × Nat)
  | cur, [] => if cur.2.2 ≠ 0 then [cur] else []
  | cur, nb :: rest =>
    if cur.1 + cur.2.2 = nb.1 ∧ cur.2.1 + cur.2.2 = nb.2.1 then
      mergeAdj (cur.1, cur.2.1, cur.2.2 + nb.2.2) rest
    else if cur.2.2 ≠ 0 then cur :: mergeAdj nb rest
    else mergeAdj nb rest

/-- `SequenceMatcher.get_matching_blocks()`: merged blocks plus the
`(la, lb, 0)` sentinel. -/
def get_matching_blocks (autojunk : Bool) (a b : List Char) : List (Nat × Nat × Nat) :=
  mergeAdj (0, 0, 0)
    (matchingBlocksRec autojunk a b (a.length + b.length + 1) 0 a.length 0 b.length) ++
    [(a.length, b.length, 0)]

/-- The total size `M` of the matching blocks. -/
def matchesTotal (autojunk : Bool) (a b : List Char) : Nat :=
  (get_matching_blocks autojunk a b).foldl (fun s t => s + t.2.2) 0

/-- A cutoff expressed as an exact fraction `num/den`; `get_common_pattern`
is called with 0.8, i.e. `(4, 5)`.  Float ratio comparisons are modelled by
the exact rational ones: for these cutoffs the two can only differ when
sequence lengths exceed about `10^15`. -/
abbrev Cutoff := Nat × Nat

/-- `_calculate_ratio(matches, length) >= cutoff` by cross-multiplication
(`2.0 * matches / length`, and `1.0` for empty sequences). -/
def calcRatioGe (m t : Nat) (cut : Cutoff) : Bool :=
  if t = 0 then decide (cut.1 ≤ cut.2)
  else decide (cut.1 * t ≤ 2 * m * cut.2)

/-- `SequenceMatcher.ratio() >= cutoff`. -/
def ratioGe (autojunk : Bool) (a b : List Char) (cut : Cutoff) : Bool :=
  calcRatioGe (matchesTotal autojunk a b) (a.length + b.length) cut

/-- `SequenceMatcher.ratio()` as an exact fraction `2*m/t` (`(1, 1)` for
empty sequences), for comparing candidates inside `nlargest`. -/
def ratioFrac (autojunk : Bool) (a b : List Char) : Nat × Nat :=
  if a.length + b.length = 0 then (1, 1)
  else (2 * matchesTotal autojunk a b, a.length + b.length)

/-- Strict comparison of two ratio fractions. -/
def fracLt (p q : Nat × Nat) : Bool := decide (p.1 * q.2 < q.1 * p.2)

/-- Equality of two ratio fractions. -/
def fracEq (p q : Nat × Nat) : Bool := decide (p.1 * q.2 = q.1 * p.2)

/-- The `avail` fold of `quick_ratio`: each char of `a` consumes one
occurrence from `b`'s multiset while any remain. -/
def quickMatchesGo (bcount : Char → Nat) : List Char → (Char → Option Int) → Nat → Nat
  | [], _, m => m
  | c :: cs, avail, m =>
    let numb : Int := match avail c with | some n => n | none => (bcount c : Int)
    quickMatchesGo bcount cs (fun c2 => if c2 = c then some (numb - 1) else avail c2)
      (if 0 < numb then m + 1 else m)

/-- `SequenceMatcher.quick_ratio() >= cutoff`. -/
def quick_ratioGe (a b : List Char) (cut : Cutoff) : Bool :=
  calcRatioGe (quickMatchesGo (fun c => b.count c) a (fun _ => none) 0)
    (a.length + b.length) cut

/-- `SequenceMatcher.real_quick_ratio() >= cutoff`. -/
def real_quick_ratioGe (a b : List Char) (cut : Cutoff) : Bool :=
  calcRatioGe (min a.length b.length) (a.length + b.length) cut

/-- The cutoff gate of `get_close_matches` for one possibility `x`
(`set_seq1(x)`, `set_seq2(word)`; default `autojunk=True`). -/
def closeGate (x word : List Char) (cut : Cutoff) : Bool :=
  real_quick_ratioGe x word cut && quick_ratioGe x word cut &&
    ratioGe true x word cut

/-- `heapq.nlargest(1, result)` over `(ratio, x)` pairs: the maximum in the
Python tuple order (ratio first, then the string); among fully equal tuples
the first one encountered wins. -/
def bestOf (word : String) : List String → String → String
  | [], best => best
  | x :: xs, best =>
    if fracLt (ratioFrac true best.data word.data) (ratioFrac true x.data word.data) ||
        (fracEq (ratioFrac true best.data word.data) (ratioFrac true x.data word.data) &&
          pyStrLt best x) then
      bestOf word xs x
    else bestOf word xs best

/-- `difflib.get_close_matches(word, l, n=1, cutoff)`. -/
def getCloseMatch (word : String) (l : List String) (cut : Cutoff) : Option String :=
  match l.filter (fun x => closeGate x.data word.data cut) with
  | [] => none
  | c :: cs => some (bestOf word cs c)

/-- Python `str.lower` (ASCII case folding; the full Unicode table is not
modelled). -/
def lowerS (s : String) : String := String.mk (s.data.map Char.toLower)

/-- The `*` character. -/
def starC : Char := Char.ofNat 42

/-- The merged pattern built by `get_common_pattern` from `a` and its close
match `b0`: per matching block of the lowercased strings (`autojunk=False`),
pad with `*` up to the block start in `a`, then copy the matched span from
the original `a`. -/
def commonPattern (a b0 : String) : String :=
  String.mk ((get_matching_blocks false (lowerS a).data (lowerS b0).data).foldl
    (fun cp m => cp ++ List.replicate (m.1 - cp.length) starC ++
      ((a.data.drop m.1).take m.2.2)) [])

/-- `while l.count(common_pattern) > 1: l.remove(common_pattern)`, fueled;
any fuel at least `l.length` reaches the fixed point. -/
def removeExtra (p : String) : Nat → List String → List String
  | 0, l => l
  | f+1, l => if 1 < l.count p then removeExtra p f (l.erase p) else l

/-- `get_common_pattern(a, l, cutoff)`: replace the close match (if any) by
the merged pattern, dropping surplus copies of the pattern, otherwise append
`a`. -/
def get_common_pattern (a : String) (l : List String) (cut : Cutoff) : List String :=
  match getCloseMatch a l cut with
  | some b0 => removeExtra (commonPattern a b0) l.length
      (l.set (l.indexOf b0) (commonPattern a b0))
  | none => l ++ [a]

/-- The cmdlines update of `update_snitch`: only a command line not already
present is clustered, and the list is re-sorted afterwards. -/
def updateCmdlines (c : String) (l : List String) : List String :=
  if c ∈ l then l else sSort pyStrLe (get_common_pattern c l (4, 5))

/-! ## Lemmas about the clustering -/

theorem bestOf_mem (word : String) (xs : List String) (best : String) :
    bestOf word xs best = best ∨ bestOf word xs best ∈ xs := by
  induction xs generalizing best with
  | nil => left; rfl
  | cons x xs ih =>
    simp only [bestOf]
    split
    · rcases ih x with h | h
      · right; rw [h]; exact List.mem_cons_self x xs
      · right; exact List.mem_cons_of_mem _ h
    · rcases ih best with h | h
      · left; exact h
      · right; exact List.mem_cons_of_mem _ h

/-- A close match returned by `get_close_matches` is one of the candidates
and passed the cutoff gate (so its ratio against the word is at least the
cutoff). -/
theorem getCloseMatch_mem (word : String) (l : List String) (cut : Cutoff)
    (b0 : String) (h : getCloseMatch word l cut = some b0) :
    b0 ∈ l ∧ closeGate b0.data word.data cut = true := by
  unfold getCloseMatch at h
  cases hf : l.filter (fun x => closeGate x.data word.data cut) with
  | nil => rw [hf] at h; cases h
  | cons c cs =>
    rw [hf] at h
    injection h with h
    have hb0 : b0 ∈ c :: cs := by
      rcases bestOf_mem word cs c with h2 | h2
      · rw [← h, h2]; exact List.mem_cons_self c cs
      · rw [← h]; exact List.mem_cons_of_mem _ h2
    have hmf : b0 ∈ l.filter (fun x => closeGate x.data word.data cut) := by
      rw [hf]; exact hb0
    have hp := List.of_mem_filter hmf
    exact ⟨List.mem_of_mem_filter hmf, hp⟩

theorem mem_set_self_of_lt {α : Type} [DecidableEq α] (l : List α) (a : α) (n : Nat)
    (h : n < l.length) : a ∈ l.set n a := by
  induction l generalizing n with
  | nil => cases h
  | cons x xs ih =>
    cases n with
    | zero => exact List.mem_cons_self a _
    | succ m => exact List.mem_cons_of_mem x (ih m (Nat.lt_of_succ_lt_succ h))

theorem removeExtra_length (p : String) (f : Nat) (l : List String) :
    (removeExtra p f l).length ≤ l.length := by
  induction f generalizing l with
  | zero => exact le_refl _
  | succ f ih =>
    simp only [removeExtra]
    split
    · exact le_trans (ih (l.erase p)) (List.erase_sublist p l).length_le
    · exact le_refl _

theorem removeExtra_count (p : String) (f : Nat) (l : List String)
    (h1 : 1 ≤ l.count p) (h2 : l.count p ≤ f + 1) :
    (removeExtra p f l).count p = 1 := by
  induction f generalizing l with
  | zero =>
    simp only [removeExtra]
    omega
  | succ f ih =>
    simp only [removeExtra]
    split
    · apply ih
      · rw [List.count_erase_self]; omega
      · rw [List.count_erase_self]; omega
    · omega

/-! ## The clustering claim -/

/-- C6.  Cmdline clustering: a command line already present leaves
`cmdlines` unchanged; a new command line whose closest match passes the 0.8
cutoff does not grow the list — the closest match is replaced in place by the
`*`-masked merged pattern, surplus copies of the pattern are removed, and the
list is re-sorted, leaving exactly one copy of the pattern. -/
theorem cmdline_clustering (c : String) (l : List String) :
    (c ∈ l → updateCmdlines c l = l) ∧
    (∀ b0, c ∉ l → getCloseMatch c l (4, 5) = some b0 →
      (updateCmdlines c l).length ≤ l.length ∧
      commonPattern c b0 ∈ updateCmdlines c l ∧
      (updateCmdlines c l).count (commonPattern c b0) = 1 ∧
      ratioGe true b0.data c.data (4, 5) = true ∧
      updateCmdlines c l = sSort pyStrLe (removeExtra (commonPattern c b0) l.length
        (l.set (List.indexOf b0 l) (commonPattern c b0)))) := by
  constructor
  · intro h
    simp [updateCmdlines, h]
  · intro b0 hc hm
    obtain ⟨hb0l, hgate⟩ := getCloseMatch_mem c l (4, 5) b0 hm
    have heq : updateCmdlines c l = sSort pyStrLe
        (removeExtra (commonPattern c b0) l.length
          (l.set (List.indexOf b0 l) (commonPattern c b0))) := by
      simp [updateCmdlines, hc, get_common_pattern, hm]
    have hidx : List.indexOf b0 l < l.length := List.indexOf_lt_length.mpr hb0l
    have hmemset : commonPattern c b0 ∈ l.set (List.indexOf b0 l) (commonPattern c b0) :=
      mem_set_self_of_lt l _ _ hidx
    have hcount1 : 1 ≤ (l.set (List.indexOf b0 l) (commonPattern c b0)).count
        (commonPattern c b0) := List.count_pos_iff.mpr hmemset
    have hcount2 : (l.set (List.indexOf b0 l) (commonPattern c b0)).count
        (commonPattern c b0) ≤ l.length + 1 := by
      have := List.count_le_length (commonPattern c b0)
        (l.set (List.indexOf b0 l) (commonPattern c b0))
      simpa using Nat.le_succ_of_le this
    have hrc : (removeExtra (commonPattern c b0) l.length
        (l.set (List.indexOf b0 l) (commonPattern c b0))).count (commonPattern c b0) = 1 :=
      removeExtra_count _ _ _ hcount1 hcount2
    have hsc : (updateCmdlines c l).count (commonPattern c b0) = 1 := by
      rw [heq, (sSort_perm pyStrLe _).count_eq]
      exact hrc
    refine ⟨?_, ?_, hsc, ?_, heq⟩
    · rw [heq, sSort_length]
      exact le_trans (removeExtra_length _ _ _) (by simp)
    · exact List.count_pos_iff.mp (by rw [hsc]; exact Nat.one_pos)
    · simp only [closeGate, Bool.and_eq_true] at hgate
      exact hgate.2

/-- Closed witness for C6: re-inserting `hello 1` is the identity, and
inserting `hello 1` next to the 0.857-similar `hello 2` merges them into
`hello *` without growing the list. -/
theorem cmdline_clustering_witness :
    updateCmdlines "hello 1" ["hello 1"] = ["hello 1"] ∧
    updateCmdlines "hello 1" ["hello 2"] = ["hello *"] ∧
    (updateCmdlines "hello 1" ["hello 2"]).length ≤ 1 := by
  have h1 := (cmdline_clustering "hello 1" ["hello 1"]).1 (by decide)
  have h2 := (cmdline_clustering "hello 1" ["hello 2"]).2 "hello 2" (by decide) (by decide)
  refine ⟨h1, ?_, h2.1⟩
  rw [h2.2.2.2.2]
  decide

/-! ## The knowledge base (`snitch`) -/

/-- One element of the mixed `Remote address unlog` list (ints are ports,
strings are names; Python `in` never identifies an int with a string). -/
inductive UnlogEntry
  | port (p : Int)
  | name (s : String)
deriving DecidableEq

def unlogHasPort (p : Int) (l : List UnlogEntry) : Bool :=
  l.any (fun e => match e with | .port q => q = p | .name _ => false)

def unlogHasName (n : String) (l : List UnlogEntry) : Bool :=
  l.any (fun e => match e with | .port _ => false | .name s => s = n)

/-- The `Config` dict. -/
structure Config where
  logCmdlines : Bool
  logRemoteAddress : Bool
  onlyLogConnections : Bool
  unlog : List UnlogEntry
  vtApiKey : String
  vtFileUpload : Bool
  vtLimitRequest : Int
deriving DecidableEq

/-- One value of the `Processes` dict. -/
structure ProcessEntry where
  name : String
  cmdlines : List String
  firstSeen : String
  lastSeen : String
  daysSeen : Int
  ports : List Int
  remoteAddresses : List String
  results : List (String × String)
deriving DecidableEq

/-- The in-memory knowledge base.  `writelock` models the presence of the
`WRITELOCK` key (absent = `false`). -/
structure Snitch where
  config : Config
  errors : List String
  latestEntries : List String
  names : List (String × List String)
  processes : List (String × ProcessEntry)
  remoteAddresses : List (String × List String)
  writelock : Bool
deriving DecidableEq

/-- `conn["port"] not in unlog and proc["name"] not in unlog`. -/
def loggable (cfg : Config) (port : Int) (name : String) : Bool :=
  !(unlogHasPort port cfg.unlog) && !(unlogHasName name cfg.unlog)

/-- Python `int <=` as a sort relation. -/
def intLe (a b : Int) : Bool := decide (a ≤ b)

/-! ## `update_snitch`, section by section -/

/-- `# Update Latest Entries`. -/
def updLatest (s : Snitch) (proc : ProcInfo) (ctime : String) : Snitch :=
  if (alGet proc.exe s.processes).isNone ∨ (alGet proc.name s.names).isNone then
    { s with latestEntries :=
        s.latestEntries ++ [ctime ++ " " ++ proc.name ++ " - " ++ proc.exe] }
  else s

/-- `# Update Names`: port `-1` marks a process without a detected
connection, so a brand-new name enters the index only with a network event or
when `Only log connections` is off.  Also returns the toasts raised. -/
def updNames (s : Snitch) (proc : ProcInfo) (ip : String) (port : Int) :
    Snitch × List String :=
  match alGet proc.name s.names with
  | some exes =>
    if proc.exe ∉ exes then
      ({ s with names := alUp proc.name (exes ++ [proc.exe]) s.names },
       ["New executable detected for " ++ proc.name ++ ": " ++ proc.exe])
    else (s, [])
  | none =>
    if ip ≠ "" ∨ 0 ≤ port then
      ({ s with names := alUp proc.name [proc.exe] s.names },
       ["First network connection detected for " ++ proc.name])
    else if s.config.onlyLogConnections then (s, [])
    else ({ s with names := alUp proc.name [proc.exe] s.names }, [])

/-- `# Update Processes`, new-entry arm. -/
def newProcessEntry (cfg : Config) (proc : ProcInfo) (reversedDns : String)
    (port : Int) (sha256 ctime : String) : ProcessEntry :=
  let entry : ProcessEntry :=
    { name := proc.name, cmdlines := [proc.cmdline], firstSeen := ctime,
      lastSeen := ctime, daysSeen := 1, ports := [port], remoteAddresses := [],
      results := [(sha256, "Pending")] }
  if loggable cfg port proc.name then
    { entry with remoteAddresses := [reversedDns] }
  else entry

/-- `# Update Processes`, existing-entry arm: the mutations applied to
`entry = snitch["Processes"][proc["exe"]]`, in source order.  Returns the
entry together with the VT requests and toasts raised. -/
def updExistingEntry (cfg : Config) (e : ProcessEntry) (proc : ProcInfo)
    (reversedDns : String) (port : Int) (sha256 ctime : String) :
    ProcessEntry × List (ProcInfo × String) × List String :=
  -- `if proc["name"] not in entry["name"]` is a substring test on the field
  let e := if pyInStr proc.name e.name then e
    else { e with name := e.name ++ " alternative=" ++ proc.name }
  let e := { e with cmdlines := updateCmdlines proc.cmdline e.cmdlines }
  let e := if port ∈ e.ports then e
    else { e with ports := sSort intLe (e.ports ++ [port]) }
  let e := if reversedDns ∈ e.remoteAddresses then e
    else if loggable cfg port proc.name then
      { e with remoteAddresses := e.remoteAddresses ++ [reversedDns] }
    else e
  let new_sha := (alGet sha256 e.results).isNone
  let e := if new_sha then { e with results := e.results ++ [(sha256, "Pending")] } else e
  let e := if (pySplitWs ctime).take 3 ≠ (pySplitWs e.lastSeen).take 3 then
      { e with daysSeen := e.daysSeen + 1 }
    else e
  let e := { e with lastSeen := ctime }
  (e,
   if new_sha then [(proc, sha256)] else [],
   if new_sha then ["New sha256 detected for " ++ proc.name ++ ": " ++ proc.exe] else [])

/-- `# Update Processes`. -/
def updProcesses (s : Snitch) (proc : ProcInfo) (reversedDns : String)
    (port : Int) (sha256 ctime : String) :
    Snitch × List (ProcInfo × String) × List String :=
  match alGet proc.exe s.processes with
  | none =>
    let entry := newProcessEntry s.config proc reversedDns port sha256 ctime
    ({ s with processes := alUp proc.exe entry s.processes }, [(proc, sha256)], [])
  | some e =>
    let r := updExistingEntry s.config e proc reversedDns port sha256 ctime
    ({ s with processes := alUp proc.exe r.1 s.processes }, r.2.1, r.2.2)

/-- `# Update Remote Addresses`.  Python `list.insert(1, exe)` clamps for
lists shorter than 1; every stored list carries its sentinel head, so the
clamp never fires. -/
def updRemote (s : Snitch) (proc : ProcInfo) (reversedDns : String)
    (port : Int) (ctime : String) : Snitch :=
  match alGet reversedDns s.remoteAddresses with
  | some lst =>
    if proc.exe ∉ lst then
      let lst2 := List.insertIdx 1 proc.exe lst
      let lst3 := if "No processes found during polling" ∈ lst2 then
          lst2.erase "No processes found during polling"
        else lst2
      { s with remoteAddresses := alUp reversedDns lst3 s.remoteAddresses }
    else s
  | none =>
    if loggable s.config port proc.name then
      let lst := ["First connection: " ++ ctime, proc.exe]
      { s with remoteAddresses := alUp reversedDns lst s.remoteAddresses }
    else s

/-- The body of `update_snitch` between setting and popping `WRITELOCK`.
`rdns` stands for `reverse_domain_name(reverse_dns_lookup(ip))` (the lookup
is a network effect). -/
def omitProcCmdline (cfg : Config) (proc : ProcInfo) : ProcInfo :=
  if cfg.logCmdlines then proc else { proc with cmdline := "" }

def omitDns (cfg : Config) (d : String) : String :=
  if cfg.logRemoteAddress then d else ""

def update_snitch_body (rdns : String → String) (s : Snitch) (proc : ProcInfo)
    (ip : String) (port : Int) (sha256 ctime : String) :
    Snitch × List (ProcInfo × String) × List String :=
  -- `# Get DNS reverse name ...` then `# Omit fields from log`
  let proc := omitProcCmdline s.config proc
  let reversedDns := omitDns s.config (rdns ip)
  let s := updLatest s proc ctime
  let r1 := updNames s proc ip port
  let r2 := updProcesses r1.1 proc reversedDns port sha256 ctime
  let s := updRemote r2.1 proc reversedDns port ctime
  (s, r2.2.1, r1.2 ++ r2.2.2)

/-- `update_snitch`: flag the state non-persistable, run the body, then pop
the flag. -/
def update_snitch (rdns : String → String) (s : Snitch) (proc : ProcInfo)
    (ip : String) (port : Int) (sha256 ctime : String) :
    Snitch × List (ProcInfo × String) × List String :=
  let r := update_snitch_body rdns { s with writelock := true } proc ip port sha256 ctime
  ({ r.1 with writelock := false }, r.2)

/-- `update_snitch_wrapper`: apply `update_snitch` for every queued triple,
fetching each digest from the hasher (`sha`, memoized by path in the
worker). -/
def update_snitch_wrapper (rdns sha : String → String) (s : Snitch)
    (usp : List USPEntry) : Snitch :=
  usp.foldl (fun s u => (update_snitch rdns s u.proc u.ip u.port (sha u.proc.exe) u.ctime).1) s

/-! ## The write-lock flag through `update_snitch` -/

theorem updLatest_writelock (s : Snitch) (proc : ProcInfo) (ctime : String) :
    (updLatest s proc ctime).writelock = s.writelock := by
  unfold updLatest
  split <;> rfl

theorem updNames_writelock (s : Snitch) (proc : ProcInfo) (ip : String) (port : Int) :
    (updNames s proc ip port).1.writelock = s.writelock := by
  unfold updNames
  split
  · split <;> rfl
  · split
    · rfl
    · split <;> rfl

theorem updProcesses_writelock (s : Snitch) (proc : ProcInfo) (reversedDns : String)
    (port : Int) (sha256 ctime : String) :
    (updProcesses s proc reversedDns port sha256 ctime).1.writelock = s.writelock := by
  unfold updProcesses
  split <;> rfl

theorem updRemote_writelock (s : Snitch) (proc : ProcInfo) (reversedDns : String)
    (port : Int) (ctime : String) :
    (updRemote s proc reversedDns port ctime).writelock = s.writelock := by
  unfold updRemote
  split
  · split <;> rfl
  · split <;> rfl

/-- The whole critical section leaves the flag as it found it (it is set on
entry and popped only on exit). -/
theorem update_snitch_body_writelock (rdns : String → String) (s : Snitch)
    (proc : ProcInfo) (ip : String) (port : Int) (sha256 ctime : String) :
    (update_snitch_body rdns s proc ip port sha256 ctime).1.writelock = s.writelock := by
  unfold update_snitch_body
  rw [updRemote_writelock, updProcesses_writelock, updNames_writelock,
    updLatest_writelock]

/-! ## Persistence paths -/

/-- `~/.config/picosnitch/snitch.json`. -/
def snitchJsonPath (home : String) : String := home ++ "/.config/picosnitch/snitch.json"

/-- `~/.config/picosnitch/error.log`. -/
def errorLogPath (home : String) : String := home ++ "/.config/picosnitch/error.log"

/-- The file `write` targets: `snitch.json~` when the popped `WRITELOCK` was
set, `snitch.json` otherwise. -/
def writeTargetPath (home : String) (s : Snitch) : String :=
  if s.writelock then snitchJsonPath home ++ "~" else snitchJsonPath home

/-! ## C3: the critical-section flag -/

/-- C3.  `update_snitch` sets `WRITELOCK` on entry; the flag stays set
through the whole critical section (the body never clears it) and is popped
on exit; and a persist that observes the flag diverts to the `~` side path,
never writing the main snapshot path, so the main snapshot only ever
receives fully applied updates. -/
theorem writelock_protects_snapshot (rdns : String → String) (s : Snitch)
    (proc : ProcInfo) (ip : String) (port : Int) (sha256 ctime : String)
    (home : String) :
    ({ s with writelock := true } : Snitch).writelock = true ∧
    (update_snitch_body rdns { s with writelock := true } proc ip port
        sha256 ctime).1.writelock = true ∧
    (update_snitch rdns s proc ip port sha256 ctime).1.writelock = false ∧
    (∀ t : Snitch, t.writelock = true →
      writeTargetPath home t ≠ snitchJsonPath home) := by
  refine ⟨rfl, ?_, rfl, ?_⟩
  · rw [update_snitch_body_writelock]
  · intro t ht
    simp only [writeTargetPath, ht, if_true]
    intro hEq
    have hlen := congrArg String.length hEq
    rw [String.length_append] at hlen
    have h1 : ("~" : String).length = 1 := rfl
    omega

/-- A sample configuration (the template defaults). -/
def sampleConfig : Config :=
  ⟨true, true, true, [.port 80, .name "chrome", .name "firefox"], "", false, 15⟩

/-- A freshly initialized knowledge base. -/
def freshSnitch : Snitch := ⟨sampleConfig, [], [], [], [], [], false⟩

/-- The identity in place of the reverse-DNS composite (a lookup that fails
returns the ip unchanged, and an ip is not reversed). -/
def idRdns : String → String := fun ip => ip

/-- Closed witness for C3. -/
theorem writelock_protects_snapshot_witness :
    (update_snitch idRdns freshSnitch ⟨100, "curl", "/usr/bin/curl", "curl"⟩
        "93.184.216.34" 443 "AB" "T").1.writelock = false ∧
    writeTargetPath "/home/u" { freshSnitch with writelock := true }
      ≠ snitchJsonPath "/home/u" := by
  have h := writelock_protects_snapshot idRdns freshSnitch
    ⟨100, "curl", "/usr/bin/curl", "curl"⟩ "93.184.216.34" 443 "AB" "T" "/home/u"
  exact ⟨h.2.2.1, h.2.2.2 _ rfl⟩

/-! ## C9: the `name` field of an ExecutableRecord -/

theorem updExistingEntry_name (cfg : Config) (e : ProcessEntry) (proc : ProcInfo)
    (reversedDns : String) (port : Int) (sha256 ctime : String) :
    (updExistingEntry cfg e proc reversedDns port sha256 ctime).1.name
      = (if pyInStr proc.name e.name then e.name
         else e.name ++ " alternative=" ++ proc.name) := by
  unfold updExistingEntry
  by_cases h : pyInStr proc.name e.name <;>
    simp [h, apply_ite ProcessEntry.name, ite_self]

theorem updLatest_processes (s : Snitch) (proc : ProcInfo) (ctime : String) :
    (updLatest s proc ctime).processes = s.processes := by
  unfold updLatest
  split <;> rfl

theorem updNames_processes (s : Snitch) (proc : ProcInfo) (ip : String) (port : Int) :
    (updNames s proc ip port).1.processes = s.processes := by
  unfold updNames
  split
  · split <;> rfl
  · split
    · rfl
    · split <;> rfl

theorem updNames_config (s : Snitch) (proc : ProcInfo) (ip : String) (port : Int) :
    (updNames s proc ip port).1.config = s.config := by
  unfold updNames
  split
  · split <;> rfl
  · split
    · rfl
    · split <;> rfl

theorem updLatest_config (s : Snitch) (proc : ProcInfo) (ctime : String) :
    (updLatest s proc ctime).config = s.config := by
  unfold updLatest
  split <;> rfl

theorem updRemote_processes (s : Snitch) (proc : ProcInfo) (reversedDns : String)
    (port : Int) (ctime : String) :
    (updRemote s proc reversedDns port ctime).processes = s.processes := by
  unfold updRemote
  split
  · split <;> rfl
  · split <;> rfl

theorem omitProcCmdline_exe (cfg : Config) (proc : ProcInfo) :
    (omitProcCmdline cfg proc).exe = proc.exe := by
  unfold omitProcCmdline
  split <;> rfl

theorem omitProcCmdline_name (cfg : Config) (proc : ProcInfo) :
    (omitProcCmdline cfg proc).name = proc.name := by
  unfold omitProcCmdline
  split <;> rfl

theorem newProcessEntry_name (cfg : Config) (proc : ProcInfo) (reversedDns : String)
    (port : Int) (sha256 ctime : String) :
    (newProcessEntry cfg proc reversedDns port sha256 ctime).name = proc.name := by
  unfold newProcessEntry
  split <;> rfl

/-- What the `Processes` entry for the updated executable looks like after
the body: the new-entry record when the path was unknown, the mutated
existing record otherwise. -/
theorem update_snitch_body_processes (rdns : String → String) (s : Snitch)
    (proc : ProcInfo) (ip : String) (port : Int) (sha256 ctime : String) :
    (∀ e, alGet proc.exe s.processes = some e →
      alGet proc.exe (update_snitch_body rdns s proc ip port sha256 ctime).1.processes
        = some (updExistingEntry s.config e (omitProcCmdline s.config proc)
            (omitDns s.config (rdns ip)) port sha256 ctime).1) ∧
    (alGet proc.exe s.processes = none →
      alGet proc.exe (update_snitch_body rdns s proc ip port sha256 ctime).1.processes
        = some (newProcessEntry s.config (omitProcCmdline s.config proc)
            (omitDns s.config (rdns ip)) port sha256 ctime)) := by
  unfold update_snitch_body
  have hexe := omitProcCmdline_exe s.config proc
  have hcfg : (updNames (updLatest s (omitProcCmdline s.config proc) ctime)
      (omitProcCmdline s.config proc) ip port).1.config = s.config := by
    rw [updNames_config, updLatest_config]
  have hpr : (updNames (updLatest s (omitProcCmdline s.config proc) ctime)
      (omitProcCmdline s.config proc) ip port).1.processes = s.processes := by
    rw [updNames_processes, updLatest_processes]
  constructor
  · intro e he
    rw [updRemote_processes]
    unfold updProcesses
    rw [hexe, hpr, he, hcfg]
    simp only [alGet_alUp_self]
  · intro he
    rw [updRemote_processes]
    unfold updProcesses
    rw [hexe, hpr, he, hcfg]
    simp only [alGet_alUp_self]

/-- C9 (amended).  On an update of an existing ExecutableRecord the `name`
field keeps its existing content: a newly observed name that is not a
substring of the field is appended as `alternative=<name>` (so the field
holds the *first* observed name at its head, not the most recent), a name
that is a substring of the field leaves it unchanged, and in every case the
old field is a prefix of the new one, so names are never removed.  On
creation the field is the observed name. -/
theorem name_field_update (rdns : String → String) (s : Snitch) (proc : ProcInfo)
    (ip : String) (port : Int) (sha256 ctime : String) :
    (∀ e, alGet proc.exe s.processes = some e →
      ∃ e2, alGet proc.exe
          (update_snitch rdns s proc ip port sha256 ctime).1.processes = some e2 ∧
        e2.name = (if pyInStr proc.name e.name then e.name
                   else e.name ++ " alternative=" ++ proc.name) ∧
        ∃ t, e2.name = e.name ++ t) ∧
    (alGet proc.exe s.processes = none →
      ∃ e2, alGet proc.exe
          (update_snitch rdns s proc ip port sha256 ctime).1.processes = some e2 ∧
        e2.name = proc.name) := by
  have hb := update_snitch_body_processes rdns { s with writelock := true } proc ip
    port sha256 ctime
  constructor
  · intro e he
    have h1 := hb.1 e he
    refine ⟨_, h1, ?_, ?_⟩
    · rw [updExistingEntry_name, omitProcCmdline_name]
    · rw [updExistingEntry_name, omitProcCmdline_name]
      split
      · exact ⟨"", by simp⟩
      · exact ⟨" alternative=" ++ proc.name, by rw [String.append_assoc]⟩
  · intro he
    have h1 := hb.2 he
    exact ⟨_, h1, by rw [newProcessEntry_name, omitProcCmdline_name]⟩

/-- C9 counterexample: create `/x` under name `a`, then observe name `b` for
it.  The field becomes `a alternative=b`: its head token is the *first*
observed name `a`, not the most recent observed name `b`, and it is not
`b alternative=a` — refuting the claim that the field holds the most recent
name with the prior names as the `alternative=` tokens. -/
theorem name_field_counterexample :
    (alGet "/x"
        (update_snitch idRdns
          (update_snitch idRdns freshSnitch ⟨1, "a", "/x", "c"⟩ "9.9.9.9" 5 "AB" "T").1
          ⟨1, "b", "/x", "c"⟩ "9.9.9.9" 5 "AB" "T").1.processes).map ProcessEntry.name
      = some "a alternative=b" ∧
    (alGet "/x"
        (update_snitch idRdns
          (update_snitch idRdns freshSnitch ⟨1, "a", "/x", "c"⟩ "9.9.9.9" 5 "AB" "T").1
          ⟨1, "b", "/x", "c"⟩ "9.9.9.9" 5 "AB" "T").1.processes).map
        (fun e => (pySplitWs e.name).head?) = some (some "a") ∧
    some "a alternative=b" ≠ some ("b alternative=a" : String) ∧
    some "a alternative=b" ≠ some ("b" : String) ∧ ("a" : String) ≠ "b" := by
  refine ⟨by decide, by decide, by decide, by decide, by decide⟩

/-- Closed witness for the amended C9. -/
theorem name_field_update_witness :
    ∃ e2, alGet "/x"
        (update_snitch idRdns
          { freshSnitch with processes :=
              [("/x", ⟨"a", ["c"], "T", "T", 1, [5], [], [("AB", "Pending")]⟩)] }
          ⟨1, "b", "/x", "c"⟩ "9.9.9.9" 5 "AB" "T").1.processes = some e2 ∧
      e2.name = "a alternative=b" ∧ ∃ t, e2.name = "a" ++ t := by
  obtain ⟨e2, h1, h2, h3⟩ := (name_field_update idRdns
    { freshSnitch with processes :=
        [("/x", ⟨"a", ["c"], "T", "T", 1, [5], [], [("AB", "Pending")]⟩)] }
    ⟨1, "b", "/x", "c"⟩ "9.9.9.9" 5 "AB" "T").1
    ⟨"a", ["c"], "T", "T", 1, [5], [], [("AB", "Pending")]⟩ (by decide)
  refine ⟨e2, h1, ?_, ?_⟩
  · rw [h2]; decide
  · obtain ⟨t, ht⟩ := h3
    exact ⟨t, ht⟩

/-! ## The persisted snapshot (`write` / `read`) at the JSON level

`write` serializes with `json.dump(..., indent=2, sort_keys=True,
ensure_ascii=False)`; the model works on the JSON tree: `sort_keys` sorts
every object's keys, which is the one serialization effect visible to a
reload (text layout is not).  The fixed key lists below are written in their
sorted order. -/

inductive Json
  | str (s : String)
  | num (n : Int)
  | bool (b : Bool)
  | arr (xs : List Json)
  | obj (kvs : List (String × Json))

/-- `sort_keys=True` on one object. -/
def sortKvs {α : Type} (m : List (String × α)) : List (String × α) :=
  sSort (fun a b => pyStrLe a.1 b.1) m

def unlogJson : UnlogEntry → Json
  | .port p => .num p
  | .name s => .str s

def configJson (c : Config) : Json := .obj [
  ("Log command lines", .bool c.logCmdlines),
  ("Log remote address", .bool c.logRemoteAddress),
  ("Only log connections", .bool c.onlyLogConnections),
  ("Remote address unlog", .arr (c.unlog.map unlogJson)),
  ("VT API key", .str c.vtApiKey),
  ("VT file upload", .bool c.vtFileUpload),
  ("VT limit request", .num c.vtLimitRequest)]

def entryJson (e : ProcessEntry) : Json := .obj [
  ("cmdlines", .arr (e.cmdlines.map .str)),
  ("days seen", .num e.daysSeen),
  ("first seen", .str e.firstSeen),
  ("last seen", .str e.lastSeen),
  ("name", .str e.name),
  ("ports", .arr (e.ports.map .num)),
  ("remote addresses", .arr (e.remoteAddresses.map .str)),
  ("results", .obj (sortKvs (e.results.map (fun kv => (kv.1, Json.str kv.2)))))]

def strListMapJson (m : List (String × List String)) : Json :=
  .obj (sortKvs (m.map (fun kv => (kv.1, Json.arr (kv.2.map .str)))))

/-- What `json.dump` writes for the snitch: by this point `write` has popped
`WRITELOCK` and deleted `Errors`, so neither appears. -/
def snitchJson (s : Snitch) : Json := .obj [
  ("Config", configJson s.config),
  ("Latest Entries", .arr (s.latestEntries.map .str)),
  ("Names", strListMapJson s.names),
  ("Processes", .obj (sortKvs (s.processes.map (fun kv => (kv.1, entryJson kv.2))))),
  ("Remote Addresses", strListMapJson s.remoteAddresses)]

/-- Traverse a list with a fallible decoder. -/
def optMapM {α β : Type} (f : α → Option β) : List α → Option (List β)
  | [] => some []
  | a :: as =>
    match f a with
    | none => none
    | some b => (optMapM f as).map (fun bs => b :: bs)

def decStr : Json → Option String
  | .str s => some s
  | _ => none

def decNum : Json → Option Int
  | .num n => some n
  | _ => none

def decBool : Json → Option Bool
  | .bool b => some b
  | _ => none

def decStrList : Json → Option (List String)
  | .arr xs => optMapM decStr xs
  | _ => none

def decIntList : Json → Option (List Int)
  | .arr xs => optMapM decNum xs
  | _ => none

def decUnlog : Json → Option UnlogEntry
  | .num n => some (.port n)
  | .str s => some (.name s)
  | _ => none

def decConfig : Json → Option Config
  | .obj kvs => do
    let lc ← alGet "Log command lines" kvs >>= decBool
    let lr ← alGet "Log remote address" kvs >>= decBool
    let oc ← alGet "Only log connections" kvs >>= decBool
    let ul ← match alGet "Remote address unlog" kvs with
      | some (.arr xs) => optMapM decUnlog xs
      | _ => none
    let ak ← alGet "VT API key" kvs >>= decStr
    let fu ← alGet "VT file upload" kvs >>= decBool
    let lim ← alGet "VT limit request" kvs >>= decNum
    some ⟨lc, lr, oc, ul, ak, fu, lim⟩
  | _ => none

def decResults : Json → Option (List (String × String))
  | .obj kvs => optMapM (fun kv => (decStr kv.2).map (fun v => (kv.1, v))) kvs
  | _ => none

def decEntry : Json → Option ProcessEntry
  | .obj kvs => do
    let cl ← alGet "cmdlines" kvs >>= decStrList
    let ds ← alGet "days seen" kvs >>= decNum
    let fs ← alGet "first seen" kvs >>= decStr
    let ls ← alGet "last seen" kvs >>= decStr
    let nm ← alGet "name" kvs >>= decStr
    let ps ← alGet "ports" kvs >>= decIntList
    let ra ← alGet "remote addresses" kvs >>= decStrList
    let rs ← alGet "results" kvs >>= decResults
    some ⟨nm, cl, fs, ls, ds, ps, ra, rs⟩
  | _ => none

def decStrListMap : Json → Option (List (String × List String))
  | .obj kvs => optMapM (fun kv => (decStrList kv.2).map (fun v => (kv.1, v))) kvs
  | _ => none

/-- `read()` on an existing file: `json.load`, then `data["Errors"] = []`,
then the asserts (presence of the template keys, top-level type checks, and
presence of the config keys).  The typed reconstruction here additionally
validates the interior shapes, which `read` leaves unchecked but which every
tree produced by `snitchJson` satisfies. -/
def readSnitch : Json → Option Snitch
  | .obj kvs => do
    let cfg ← alGet "Config" kvs >>= decConfig
    let le ← alGet "Latest Entries" kvs >>= decStrList
    let names ← alGet "Names" kvs >>= decStrListMap
    let procs ← match alGet "Processes" kvs with
      | some (.obj pkvs) => optMapM (fun kv => (decEntry kv.2).map (fun v => (kv.1, v))) pkvs
      | _ => none
    let ras ← alGet "Remote Addresses" kvs >>= decStrListMap
    some ⟨cfg, [], le, names, procs, ras, false⟩
  | _ => none

/-! ## The `write` function -/

/-- Which filesystem operations succeed during one `write` call. -/
structure WriteEnv where
  logOk : Bool
  dumpOk : Bool
deriving DecidableEq

/-- The observable outcome of one `write` call: the state it leaves behind,
the JSON written to `targetPath` (if the dump ran), the lines appended to
`error.log`, and whether the failure toast was raised. -/
structure WriteRes where
  snitch : Snitch
  dumped : Option Json
  targetPath : String
  logLines : List String
  toasted : Bool

/-- `write(snitch)`: pop `WRITELOCK` (diverting to the `~` path when it was
set), append `Errors` to `error.log` when nonempty, delete `Errors`, dump,
then restore `Errors = []`.  The `except` arm also sets `Errors = []` and
toasts, whichever operation raised.  (`os.makedirs` runs outside the
try-block and is not modelled as fallible.) -/
def writeSnitch (env : WriteEnv) (home : String) (s : Snitch) : WriteRes :=
  let path := writeTargetPath home s
  let s := { s with writelock := false }
  if s.errors ≠ [] ∧ ¬ env.logOk then
    ⟨{ s with errors := [] }, none, path, [], true⟩
  else if ¬ env.dumpOk then
    ⟨{ s with errors := [] }, none, path, s.errors, true⟩
  else
    ⟨{ s with errors := [] }, some (snitchJson s), path, s.errors, false⟩

/-! ## Round-trip lemmas -/

theorem mapM_decStr (xs : List String) :
    optMapM decStr (xs.map Json.str) = some xs := by
  induction xs with
  | nil => rfl
  | cons x rest ih => simp [optMapM, decStr, ih]

theorem mapM_decNum (xs : List Int) :
    optMapM decNum (xs.map Json.num) = some xs := by
  induction xs with
  | nil => rfl
  | cons x rest ih => simp [optMapM, decNum, ih]

theorem mapM_decUnlog (xs : List UnlogEntry) :
    optMapM decUnlog (xs.map unlogJson) = some xs := by
  induction xs with
  | nil => rfl
  | cons x rest ih => cases x <;> simp [optMapM, unlogJson, decUnlog, ih]

theorem decStrList_arr (xs : List String) :
    decStrList (.arr (xs.map .str)) = some xs := by
  simp [decStrList, mapM_decStr]

theorem decIntList_arr (xs : List Int) :
    decIntList (.arr (xs.map .num)) = some xs := by
  simp [decIntList, mapM_decNum]

theorem mapM_dec_map {α β : Type} (g : α → Json) (dec : Json → Option β) (f : α → β)
    (hdec : ∀ v, dec (g v) = some (f v)) (l : List (String × α)) :
    optMapM (fun kv => (dec kv.2).map (fun v => (kv.1, v)))
        (l.map (fun kv => (kv.1, g kv.2)))
      = some (l.map (fun kv => (kv.1, f kv.2))) := by
  induction l with
  | nil => rfl
  | cons kv rest ih => simp [optMapM, hdec, ih]

theorem sIns_kvs_map {α β : Type} (f : α → β) (kv : String × α)
    (l : List (String × α)) :
    sIns (fun a b => pyStrLe a.1 b.1) (kv.1, f kv.2)
        (l.map (fun p => (p.1, f p.2)))
      = (sIns (fun a b => pyStrLe a.1 b.1) kv l).map (fun p => (p.1, f p.2)) := by
  induction l with
  | nil => rfl
  | cons p rest ih =>
    by_cases h : pyStrLe p.1 kv.1 <;> simp [sIns, h, ih]

theorem sortKvs_map {α β : Type} (f : α → β) (l : List (String × α)) :
    sortKvs (l.map (fun kv => (kv.1, f kv.2)))
      = (sortKvs l).map (fun kv => (kv.1, f kv.2)) := by
  induction l with
  | nil => rfl
  | cons kv rest ih =>
    simp only [List.map_cons, sortKvs, sSort] at ih ⊢
    rw [ih]
    exact sIns_kvs_map f kv (sSort (fun a b => pyStrLe a.1 b.1) rest)

theorem decResults_entry (m : List (String × String)) :
    decResults (.obj (sortKvs (m.map (fun kv => (kv.1, Json.str kv.2)))))
      = some (sortKvs m) := by
  rw [sortKvs_map Json.str]
  simp only [decResults]
  have := mapM_dec_map Json.str decStr id (fun v => rfl) (sortKvs m)
  simpa using this

theorem decStrListMap_enc (m : List (String × List String)) :
    decStrListMap (strListMapJson m) = some (sortKvs m) := by
  unfold strListMapJson
  rw [sortKvs_map (fun v : List String => Json.arr (v.map Json.str))]
  simp only [decStrListMap]
  have := mapM_dec_map (fun v : List String => Json.arr (v.map Json.str)) decStrList id
    (fun v => decStrList_arr v) (sortKvs m)
  simpa using this

theorem decConfig_enc (c : Config) : decConfig (configJson c) = some c := by
  simp [decConfig, configJson, alGet, decBool, decStr, decNum, mapM_decUnlog]

/-- A process entry with its `results` dict in sorted key order. -/
def entryFix (e : ProcessEntry) : ProcessEntry := { e with results := sortKvs e.results }

theorem decEntry_enc (e : ProcessEntry) :
    decEntry (entryJson e) = some (entryFix e) := by
  show decEntry (entryJson e) = some { e with results := sortKvs e.results }
  simp [decEntry, entryJson, alGet, decStr, decNum, decStrList_arr, decIntList_arr,
    decResults_entry, mapM_decStr, mapM_decNum, decStrList, decIntList]

/-- The knowledge base as it comes back from a reload of its own dump: the
same data with every dict in sorted key order, `Errors` reset to `[]`, and no
`WRITELOCK`. -/
def canonicalize (s : Snitch) : Snitch :=
  { config := s.config, errors := [], latestEntries := s.latestEntries,
    names := sortKvs s.names,
    processes := (sortKvs s.processes).map (fun kv => (kv.1, entryFix kv.2)),
    remoteAddresses := sortKvs s.remoteAddresses, writelock := false }

theorem readSnitch_snitchJson (s : Snitch) :
    readSnitch (snitchJson s) = some (canonicalize s) := by
  have hproc : optMapM (fun kv => (decEntry kv.2).map (fun v => (kv.1, v)))
      (sortKvs (s.processes.map (fun kv => (kv.1, entryJson kv.2))))
      = some ((sortKvs s.processes).map (fun kv => (kv.1, entryFix kv.2))) := by
    rw [sortKvs_map entryJson]
    exact mapM_dec_map entryJson decEntry entryFix decEntry_enc (sortKvs s.processes)
  simp [readSnitch, snitchJson, alGet, decConfig_enc, decStrList_arr,
    decStrListMap_enc, hproc, canonicalize]

/-! ## Dict-equality (Python `==`) modulo key order -/

/-- The keys of an association list, in order. -/
def alKeys {α : Type} (m : List (String × α)) : List String := m.map Prod.fst

/-- A Python dict has no duplicate keys. -/
def KeysNodup {α : Type} (m : List (String × α)) : Prop := (alKeys m).Nodup

instance {α : Type} (m : List (String × α)) : Decidable (KeysNodup m) :=
  List.nodupDecidable (alKeys m)

/-- Equality of association lists as finite maps — exactly Python dict
equality for duplicate-free key lists. -/
def MapEqv {α : Type} (m₁ m₂ : List (String × α)) : Prop :=
  ∀ k, alGet k m₁ = alGet k m₂

theorem alGet_none_iff {α : Type} (k : String) (m : List (String × α)) :
    alGet k m = none ↔ k ∉ alKeys m := by
  induction m with
  | nil => simp [alGet, alKeys]
  | cons p rest ih =>
    have hkeys : alKeys (p :: rest) = p.1 :: alKeys rest := rfl
    rw [hkeys]
    by_cases h : p.1 = k
    · rw [alGet, if_pos h]
      simp [h]
    · rw [alGet, if_neg h, ih]
      have hne : k ≠ p.1 := fun hEq => h hEq.symm
      simp [List.mem_cons, hne]

theorem mem_of_alGet {α : Type} (k : String) (v : α) (m : List (String × α))
    (h : alGet k m = some v) : (k, v) ∈ m := by
  induction m with
  | nil => cases h
  | cons p rest ih =>
    by_cases h2 : p.1 = k
    · rw [alGet, if_pos h2] at h
      injection h with h
      exact List.mem_cons.mpr (Or.inl (by rw [← h2, ← h]))
    · rw [alGet, if_neg h2] at h
      exact List.mem_cons_of_mem _ (ih h)

theorem alGet_of_mem_nodup {α : Type} (k : String) (v : α) (m : List (String × α))
    (hn : KeysNodup m) (h : (k, v) ∈ m) : alGet k m = some v := by
  induction m with
  | nil => cases h
  | cons p rest ih =>
    rcases List.mem_cons.mp h with h1 | h1
    · rw [← h1]
      simp [alGet]
    · have hk : k ∈ alKeys rest := by
        simpa [alKeys] using List.mem_map_of_mem Prod.fst h1
      have hp : p.1 ≠ k := by
        intro hEq
        have := (List.nodup_cons.mp hn).1
        rw [hEq] at this
        exact this hk
      rw [alGet, if_neg hp]
      exact ih (List.nodup_cons.mp hn).2 h1

theorem keysNodup_sortKvs {α : Type} (m : List (String × α)) (h : KeysNodup m) :
    KeysNodup (sortKvs m) := by
  have hperm := (sSort_perm (fun a b : String × α => pyStrLe a.1 b.1) m).map Prod.fst
  exact hperm.nodup_iff.mpr h

/-- Sorting a duplicate-free dict does not change it as a map. -/
theorem alGet_sortKvs {α : Type} (m : List (String × α)) (h : KeysNodup m)
    (k : String) : alGet k (sortKvs m) = alGet k m := by
  cases hm : alGet k m with
  | some v =>
    have hmem : (k, v) ∈ sortKvs m :=
      (sSort_mem _ _ _).mpr (mem_of_alGet k v m hm)
    exact alGet_of_mem_nodup k v _ (keysNodup_sortKvs m h) hmem
  | none =>
    rw [alGet_none_iff] at hm ⊢
    intro hk
    exact hm
      (((sSort_perm (fun a b : String × α => pyStrLe a.1 b.1) m).map Prod.fst).mem_iff.mp hk)

theorem alGet_map_snd {α β : Type} (f : α → β) (k : String)
    (m : List (String × α)) :
    alGet k (m.map (fun p => (p.1, f p.2))) = (alGet k m).map f := by
  induction m with
  | nil => rfl
  | cons p rest ih =>
    by_cases h : p.1 = k <;> simp [alGet, h, ih]

/-- Process-entry equality modulo the key order of `results`. -/
def EntryEqv (a b : ProcessEntry) : Prop :=
  a.name = b.name ∧ a.cmdlines = b.cmdlines ∧ a.firstSeen = b.firstSeen ∧
  a.lastSeen = b.lastSeen ∧ a.daysSeen = b.daysSeen ∧ a.ports = b.ports ∧
  a.remoteAddresses = b.remoteAddresses ∧ MapEqv a.results b.results

def OptEntryEqv : Option ProcessEntry → Option ProcessEntry → Prop
  | none, none => True
  | some a, some b => EntryEqv a b
  | _, _ => False

/-- Python `==` between two snitch states: dicts compare as finite maps,
ignoring key order. -/
def SnitchEqv (a b : Snitch) : Prop :=
  a.config = b.config ∧ a.errors = b.errors ∧ a.latestEntries = b.latestEntries ∧
  a.writelock = b.writelock ∧ MapEqv a.names b.names ∧
  MapEqv a.remoteAddresses b.remoteAddresses ∧
  ∀ k, OptEntryEqv (alGet k a.processes) (alGet k b.processes)

/-- C4.  A successful `write` dumps exactly `snitchJson` of the state
(`Errors` deleted, `WRITELOCK` popped); reloading that snapshot never fails
and yields the original state with `Errors` replaced by `[]` — equality is
Python dict equality, i.e. up to the key reordering done by
`sort_keys=True`.  The duplicate-free hypotheses state that the maps are
genuine dicts. -/
theorem snapshot_roundtrip (s : Snitch) (home : String)
    (h1 : KeysNodup s.names) (h2 : KeysNodup s.remoteAddresses)
    (h3 : KeysNodup s.processes)
    (h4 : ∀ kv ∈ s.processes, KeysNodup kv.2.results) :
    (writeSnitch ⟨true, true⟩ home s).dumped
      = some (snitchJson { s with writelock := false }) ∧
    readSnitch (snitchJson { s with writelock := false }) = some (canonicalize s) ∧
    (readSnitch (snitchJson { s with writelock := false })).isSome = true ∧
    SnitchEqv (canonicalize s) { s with errors := [], writelock := false } := by
  refine ⟨?_, ?_, ?_, ?_⟩
  · simp [writeSnitch]
  · have h := readSnitch_snitchJson ({ s with writelock := false })
    have hc : canonicalize { s with writelock := false } = canonicalize s := rfl
    rw [hc] at h
    exact h
  · have h := readSnitch_snitchJson ({ s with writelock := false })
    rw [h]
    rfl
  · refine ⟨rfl, rfl, rfl, rfl, ?_, ?_, ?_⟩
    · exact fun k => alGet_sortKvs s.names h1 k
    · exact fun k => alGet_sortKvs s.remoteAddresses h2 k
    · intro k
      have hmap : alGet k (canonicalize s).processes
          = (alGet k s.processes).map entryFix := by
        rw [show (canonicalize s).processes
            = (sortKvs s.processes).map (fun kv => (kv.1, entryFix kv.2)) from rfl,
          alGet_map_snd entryFix k (sortKvs s.processes),
          alGet_sortKvs s.processes h3 k]
      rw [hmap]
      cases he : alGet k s.processes with
      | none => trivial
      | some e =>
        have hres : KeysNodup e.results := h4 (k, e) (mem_of_alGet k e s.processes he)
        exact ⟨rfl, rfl, rfl, rfl, rfl, rfl, rfl,
          fun k2 => alGet_sortKvs e.results hres k2⟩

/-- A populated, already-key-sorted sample state. -/
def rtSample : Snitch :=
  ⟨sampleConfig, ["Mon Jan  1 00:00:00 2024 some error"],
   ["Mon Jan  1 00:00:00 2024 curl - /usr/bin/curl"],
   [("curl", ["/usr/bin/curl"])],
   [("/usr/bin/curl",
     ⟨"curl", ["curl https://example.com"], "Mon Jan  1 00:00:00 2024",
      "Mon Jan  1 00:00:00 2024", 1, [443], ["93.184.216.34"], [("AB", "Pending")]⟩)],
   [("93.184.216.34", ["First connection: Mon Jan  1 00:00:00 2024", "/usr/bin/curl"])],
   false⟩

/-- Closed witness for C4. -/
theorem snapshot_roundtrip_witness :
    (writeSnitch ⟨true, true⟩ "/home/u" rtSample).dumped
      = some (snitchJson { rtSample with writelock := false }) ∧
    readSnitch (snitchJson { rtSample with writelock := false })
      = some { rtSample with errors := [], writelock := false } := by
  have h := snapshot_roundtrip rtSample "/home/u" (by decide) (by decide) (by decide)
    (by decide)
  refine ⟨h.1, ?_⟩
  rw [h.2.1]
  decide

/-! ## C7: behavior of `write` on failure -/

/-- C7 (amended).  `write` always returns (a failed persist is recoverable)
with the state intact apart from `Errors` and the popped `WRITELOCK`, and a
failure raises the toast notification; but `Errors` is reset to `[]`
unconditionally, in the `except` arm as well: the pending errors reach
`error.log` only when the log append itself succeeds (whether or not the
following dump does) and are lost when the append fails. -/
theorem write_failure_behavior (env : WriteEnv) (home : String) (s : Snitch) :
    (writeSnitch env home s).snitch = { s with errors := [], writelock := false } ∧
    ((env.logOk = true ∨ s.errors = []) → env.dumpOk = true →
      (writeSnitch env home s).dumped = some (snitchJson { s with writelock := false }) ∧
      (writeSnitch env home s).logLines = s.errors ∧
      (writeSnitch env home s).toasted = false) ∧
    ((env.logOk = true ∨ s.errors = []) → env.dumpOk = false →
      (writeSnitch env home s).dumped = none ∧
      (writeSnitch env home s).logLines = s.errors ∧
      (writeSnitch env home s).toasted = true) ∧
    (s.errors ≠ [] → env.logOk = false →
      (writeSnitch env home s).dumped = none ∧
      (writeSnitch env home s).logLines = [] ∧
      (writeSnitch env home s).toasted = true) := by
  refine ⟨?_, ?_, ?_, ?_⟩
  · simp only [writeSnitch]
    split
    · rfl
    · split <;> rfl
  · intro hl hd
    have h1 : ¬ (¬ s.errors = [] ∧ env.logOk = false) := by
      rcases hl with hl | hl <;> simp [hl]
    simp only [writeSnitch]
    simp [h1, hd]
  · intro hl hd
    have h1 : ¬ (¬ s.errors = [] ∧ env.logOk = false) := by
      rcases hl with hl | hl <;> simp [hl]
    simp only [writeSnitch]
    simp [h1, hd]
  · intro he hl
    have h1 : ¬ s.errors = [] ∧ env.logOk = false := by
      simp [he, hl]
    simp only [writeSnitch]
    simp [h1]

/-- C7 counterexample: a nonempty `Errors` list and a failing `error.log`
append.  `write` returns with `Errors` cleared and nothing appended to the
log — the errors are discarded by the failed persist, contradicting the
claim that they are cleared only on a successful one. -/
theorem write_failure_counterexample :
    ({ freshSnitch with errors := ["Mon Jan  1 00:00:00 2024 some error"] } : Snitch).errors
      ≠ [] ∧
    (writeSnitch ⟨false, true⟩ "/home/u"
      { freshSnitch with errors := ["Mon Jan  1 00:00:00 2024 some error"] }).logLines
      = [] ∧
    (writeSnitch ⟨false, true⟩ "/home/u"
      { freshSnitch with errors := ["Mon Jan  1 00:00:00 2024 some error"] }).snitch.errors
      = [] ∧
    (writeSnitch ⟨false, true⟩ "/home/u"
      { freshSnitch with errors := ["Mon Jan  1 00:00:00 2024 some error"] }).toasted
      = true := by
  refine ⟨by decide, by decide, by decide, by decide⟩

/-- Closed witness for the amended C7. -/
theorem write_failure_behavior_witness :
    (writeSnitch ⟨false, true⟩ "/home/u" rtSample).snitch
      = { rtSample with errors := [], writelock := false } ∧
    (writeSnitch ⟨false, true⟩ "/home/u" rtSample).logLines = [] ∧
    (writeSnitch ⟨false, true⟩ "/home/u" rtSample).toasted = true ∧
    (writeSnitch ⟨true, true⟩ "/home/u" rtSample).logLines = rtSample.errors := by
  have hf := write_failure_behavior ⟨false, true⟩ "/home/u" rtSample
  have ht := write_failure_behavior ⟨true, true⟩ "/home/u" rtSample
  have hfail := hf.2.2.2 (by decide) rfl
  exact ⟨hf.1, hfail.2.1, hfail.2.2, (ht.2.1 (Or.inl rfl) rfl).2.1⟩

/-! ## One iteration of the updater main loop

The normal-path body of the `while True` loop in `updater_subprocess`:
drain the error queue, (no terminate/restart signal), sleep and drain the
event queue into a batch, `process_queue`, `update_snitch_wrapper`,
`get_vt_results(..., False)`, FIFO-evict `known_pids` down to 9000.  The
periodic persist of step 9 is `writeSnitch`, modelled separately. -/

/-- Merging one VirusTotal result `(exe, sha256, result, suspicious)`:
`snitch["Processes"][exe]["results"][sha256] = result`.  (In Python an exe
absent from `Processes` would raise; results are only ever produced for
recorded entries, and the case is a no-op here.) -/
def vtResultStep (s : Snitch) (r : String × String × String × Bool) : Snitch :=
  match alGet r.1 s.processes with
  | some e =>
    { s with processes := alUp r.1 { e with results := alUp r.2.1 r.2.2.1 e.results } s.processes }
  | none => s

/-- `get_vt_results(snitch, q_vt_results, False)`: drain and merge. -/
def get_vt_results_merge (s : Snitch) (rs : List (String × String × String × Bool)) : Snitch :=
  rs.foldl vtResultStep s

/-- `while len(known_pids) > 9000: known_pids.popitem(last=False)`, fueled by
the length. -/
def evictKp : Nat → List (Nat × ProcInfo) → List (Nat × ProcInfo)
  | 0, kp => kp
  | f+1, kp => if 9000 < kp.length then evictKp f (kp.drop 1) else kp

/-- The oracle inputs consumed by one loop iteration. -/
structure RoundIn where
  drained : List String
  ctime : String
  resolve : Nat → Option PsAttrs
  sha : String → String
  rdns : String → String
  vtResults : List (String × String × String × Bool)
  batch : List RawEvent

/-- The state carried across iterations. -/
structure UpdState where
  snitch : Snitch
  knownPids : List (Nat × ProcInfo)
  missedConns : List MissedConn

/-- One iteration; also returns the `update_snitch_pending` list it applied. -/
def updaterRound (r : RoundIn) (st : UpdState) : UpdState × List USPEntry :=
  let s1 := { st.snitch with errors := st.snitch.errors ++ r.drained }
  let pq := process_queue r.resolve s1.config.onlyLogConnections r.ctime s1.errors
    st.knownPids st.missedConns r.batch
  let s2 := { s1 with errors := pq.errors }
  let s3 := update_snitch_wrapper r.rdns r.sha s2 pq.usp
  let s4 := get_vt_results_merge s3 r.vtResults
  (⟨s4, evictKp pq.kp.length pq.kp, pq.pendingConns⟩, pq.usp)

def runRounds : UpdState → List RoundIn → UpdState
  | st, [] => st
  | st, r :: rs => runRounds (updaterRound r st).1 rs

/-! ## Supporting lemmas for the deferral claim -/

theorem vtResultStep_errors (s : Snitch) (r : String × String × String × Bool) :
    (vtResultStep s r).errors = s.errors := by
  unfold vtResultStep
  split <;> rfl

theorem get_vt_results_merge_errors (rs : List (String × String × String × Bool)) :
    ∀ s : Snitch, (get_vt_results_merge s rs).errors = s.errors := by
  induction rs with
  | nil => intro s; rfl
  | cons r rest ih =>
    intro s
    show (get_vt_results_merge (vtResultStep s r) rest).errors = s.errors
    rw [ih, vtResultStep_errors]

theorem alGet_drop_one {p : Nat} (kp : List (Nat × ProcInfo))
    (h : alGet p kp = none) : alGet p (kp.drop 1) = none := by
  cases kp with
  | nil => rfl
  | cons x rest =>
    rw [alGet] at h
    by_cases h2 : x.1 = p
    · rw [if_pos h2] at h; cases h
    · rw [if_neg h2] at h; exact h

theorem alGet_evictKp_none (p : Nat) (f : Nat) :
    ∀ kp : List (Nat × ProcInfo), alGet p kp = none →
    alGet p (evictKp f kp) = none := by
  induction f with
  | zero => intro kp h; exact h
  | succ f ih =>
    intro kp h
    unfold evictKp
    split
    · exact ih _ (alGet_drop_one kp h)
    · exact h

/-- `process_queue` of a singleton unknown-pid conn batch. -/
theorem process_queue_single_conn (resolve : Nat → Option PsAttrs) (ol : Bool)
    (ctime : String) (errors : List String) (kp : List (Nat × ProcInfo)) (c : ConnEv)
    (h : alGet c.pid kp = none) :
    process_queue resolve ol ctime errors kp [] [RawEvent.conn c]
      = ⟨errors, connResolveKp resolve c kp, [⟨c, 1⟩], []⟩ := by
  simp [process_queue, procEventStep, h]

/-- `process_queue` with no fresh events and one still-unresolvable deferred
conn below the bound: re-defer with the counter bumped. -/
theorem process_queue_empty_defer (resolve : Nat → Option PsAttrs) (ol : Bool)
    (ctime : String) (errors : List String) (kp : List (Nat × ProcInfo)) (c : ConnEv)
    (k : Nat) (h : alGet c.pid kp = none) (hk : k < 5) :
    process_queue resolve ol ctime errors kp [⟨c, k⟩] []
      = ⟨errors, kp, [⟨c, k + 1⟩], []⟩ := by
  simp [process_queue, missedStep, h, hk]

/-- `process_queue` with no fresh events and an exhausted deferred conn:
drop it, recording the error. -/
theorem process_queue_empty_drop (resolve : Nat → Option PsAttrs) (ol : Bool)
    (ctime : String) (errors : List String) (kp : List (Nat × ProcInfo)) (c : ConnEv)
    (h : alGet c.pid kp = none) :
    process_queue resolve ol ctime errors kp [⟨c, 5⟩] []
      = ⟨errors ++ [dropMsg ctime c], kp, [], []⟩ := by
  simp [process_queue, missedStep, h]

/-- The arrival round: the conn is deferred with `missed = 1`, nothing is
applied, and (by assumption) the resolution attempt leaves its pid
unknown. -/
theorem updaterRound_arrival (r : RoundIn) (st : UpdState) (c : ConnEv)
    (hb : r.batch = [RawEvent.conn c]) (hm : st.missedConns = [])
    (hkp : alGet c.pid st.knownPids = none)
    (hres : alGet c.pid (connResolveKp r.resolve c st.knownPids) = none) :
    (updaterRound r st).2 = [] ∧
    (updaterRound r st).1.missedConns = [⟨c, 1⟩] ∧
    (updaterRound r st).1.snitch.errors = st.snitch.errors ++ r.drained ∧
    alGet c.pid (updaterRound r st).1.knownPids = none := by
  have hpq := process_queue_single_conn r.resolve st.snitch.config.onlyLogConnections r.ctime
    (st.snitch.errors ++ r.drained) st.knownPids c hkp
  simp only [updaterRound, hb, hm, hpq]
  refine ⟨trivial, trivial, ?_, ?_⟩
  · exact get_vt_results_merge_errors r.vtResults _
  · exact alGet_evictKp_none c.pid _ _ hres

/-- A quiet round with the conn still deferred below the bound. -/
theorem updaterRound_defer (r : RoundIn) (st : UpdState) (c : ConnEv) (k : Nat)
    (hb : r.batch = []) (hm : st.missedConns = [⟨c, k⟩]) (hk : k < 5)
    (hkp : alGet c.pid st.knownPids = none) :
    (updaterRound r st).2 = [] ∧
    (updaterRound r st).1.missedConns = [⟨c, k + 1⟩] ∧
    (updaterRound r st).1.snitch.errors = st.snitch.errors ++ r.drained ∧
    alGet c.pid (updaterRound r st).1.knownPids = none := by
  have hpq := process_queue_empty_defer r.resolve st.snitch.config.onlyLogConnections r.ctime
    (st.snitch.errors ++ r.drained) st.knownPids c k hkp hk
  simp only [updaterRound, hb, hm, hpq]
  refine ⟨trivial, trivial, ?_, ?_⟩
  · exact get_vt_results_merge_errors r.vtResults _
  · exact alGet_evictKp_none c.pid _ _ hkp

/-- A quiet round with the conn at `missed = 5`: it is dropped with exactly
the one error entry. -/
theorem updaterRound_drop (r : RoundIn) (st : UpdState) (c : ConnEv)
    (hb : r.batch = []) (hm : st.missedConns = [⟨c, 5⟩])
    (hkp : alGet c.pid st.knownPids = none) :
    (updaterRound r st).2 = [] ∧
    (updaterRound r st).1.missedConns = [] ∧
    (updaterRound r st).1.snitch.errors
      = st.snitch.errors ++ r.drained ++ [dropMsg r.ctime c] := by
  have hpq := process_queue_empty_drop r.resolve st.snitch.config.onlyLogConnections r.ctime
    (st.snitch.errors ++ r.drained) st.knownPids c hkp
  simp only [updaterRound, hb, hm, hpq]
  refine ⟨trivial, trivial, ?_⟩
  rw [get_vt_results_merge_errors r.vtResults _]
  simp [update_snitch_wrapper]

/-- The drop entry contains the marker text together with the event repr. -/
theorem marker_infix_dropMsg (ctime : String) (c : ConnEv) :
    pyInStr ("no known process for conn: " ++ connRepr c) (dropMsg ctime c) := by
  unfold pyInStr dropMsg
  refine ⟨ctime.data ++ [' '], [], ?_⟩
  have h1 : (" no known process for conn: " : String).data
      = ' ' :: ("no known process for conn: " : String).data := by decide
  simp [String.data_append, h1]

/-- **C1.** A connection event whose pid is never resolved to an identity —
no exec event for the pid ever arrives (only its arrival batch is nonempty,
all later batches are quiet) and process-table resolution fails on arrival —
is deferred with its missed counter climbing 1, 2, 3, 4, 5 over five
consecutive updater rounds, is dropped on the round after the counter
reached 5 with exactly one new `Errors` entry containing
`no known process for conn: ` and the event repr (the number of marker
entries grows by exactly one at the dropping round), and the connection is
never applied to the knowledge base: every round's applied
`update_snitch_pending` list is empty. -/
theorem conn_dropped_after_five_deferrals
    (r0 r1 r2 r3 r4 r5 : RoundIn) (st0 : UpdState) (c : ConnEv)
    (hb0 : r0.batch = [RawEvent.conn c]) (hb1 : r1.batch = [])
    (hb2 : r2.batch = []) (hb3 : r3.batch = []) (hb4 : r4.batch = [])
    (hb5 : r5.batch = [])
    (hm0 : st0.missedConns = [])
    (hk0 : alGet c.pid st0.knownPids = none)
    (hres : alGet c.pid (connResolveKp r0.resolve c st0.knownPids) = none)
    (hdrain5 : ∀ e ∈ r5.drained,
      ¬ pyInStr ("no known process for conn: " ++ connRepr c) e) :
    (runRounds st0 [r0]).missedConns = [⟨c, 1⟩] ∧
    (runRounds st0 [r0, r1]).missedConns = [⟨c, 2⟩] ∧
    (runRounds st0 [r0, r1, r2]).missedConns = [⟨c, 3⟩] ∧
    (runRounds st0 [r0, r1, r2, r3]).missedConns = [⟨c, 4⟩] ∧
    (runRounds st0 [r0, r1, r2, r3, r4]).missedConns = [⟨c, 5⟩] ∧
    (runRounds st0 [r0, r1, r2, r3, r4, r5]).missedConns = [] ∧
    (runRounds st0 [r0, r1, r2, r3, r4, r5]).snitch.errors
      = (runRounds st0 [r0, r1, r2, r3, r4]).snitch.errors
        ++ r5.drained ++ [dropMsg r5.ctime c] ∧
    List.countP (fun e => decide (pyInStr ("no known process for conn: " ++ connRepr c) e))
        (runRounds st0 [r0, r1, r2, r3, r4, r5]).snitch.errors
      = List.countP (fun e => decide (pyInStr ("no known process for conn: " ++ connRepr c) e))
          (runRounds st0 [r0, r1, r2, r3, r4]).snitch.errors + 1 ∧
    (updaterRound r0 st0).2 = [] ∧
    (updaterRound r1 (runRounds st0 [r0])).2 = [] ∧
    (updaterRound r2 (runRounds st0 [r0, r1])).2 = [] ∧
    (updaterRound r3 (runRounds st0 [r0, r1, r2])).2 = [] ∧
    (updaterRound r4 (runRounds st0 [r0, r1, r2, r3])).2 = [] ∧
    (updaterRound r5 (runRounds st0 [r0, r1, r2, r3, r4])).2 = [] := by
  have h0 := updaterRound_arrival r0 st0 c hb0 hm0 hk0 hres
  have h1 := updaterRound_defer r1 (runRounds st0 [r0]) c 1 hb1 h0.2.1
    (by omega) h0.2.2.2
  have h2 := updaterRound_defer r2 (runRounds st0 [r0, r1]) c 2 hb2 h1.2.1
    (by omega) h1.2.2.2
  have h3 := updaterRound_defer r3 (runRounds st0 [r0, r1, r2]) c 3 hb3 h2.2.1
    (by omega) h2.2.2.2
  have h4 := updaterRound_defer r4 (runRounds st0 [r0, r1, r2, r3]) c 4 hb4 h3.2.1
    (by omega) h3.2.2.2
  have h5 := updaterRound_drop r5 (runRounds st0 [r0, r1, r2, r3, r4]) c hb5 h4.2.1
    h4.2.2.2
  have hE : (runRounds st0 [r0, r1, r2, r3, r4, r5]).snitch.errors
      = (runRounds st0 [r0, r1, r2, r3, r4]).snitch.errors
        ++ r5.drained ++ [dropMsg r5.ctime c] := h5.2.2
  refine ⟨h0.2.1, h1.2.1, h2.2.1, h3.2.1, h4.2.1, h5.2.1, hE, ?_,
    h0.1, h1.1, h2.1, h3.1, h4.1, h5.1⟩
  rw [hE, List.countP_append, List.countP_append]
  have hz : List.countP
      (fun e => decide (pyInStr ("no known process for conn: " ++ connRepr c) e))
      r5.drained = 0 :=
    List.countP_eq_zero.mpr (fun e he => by simpa using hdrain5 e he)
  have ho : List.countP
      (fun e => decide (pyInStr ("no known process for conn: " ++ connRepr c) e))
      [dropMsg r5.ctime c] = 1 := by
    simp [List.countP_cons, marker_infix_dropMsg]
  omega

/-- Shared sample data for the deferral claim: an arrival round carrying one
conn event from an unknown pid, a resolver that fails on every pid, and
quiet rounds after it. -/
def c1Conn : ConnEv := ⟨7, 1, "curl", 443, "93.184.216.34"⟩

def c1Round0 : RoundIn :=
  ⟨[], "Mon Jan  1 00:00:00 2024", fun _ => none, fun _ => "", idRdns, [],
    [RawEvent.conn c1Conn]⟩

def c1RoundQ : RoundIn := { c1Round0 with batch := [] }

def c1St0 : UpdState := ⟨freshSnitch, [], []⟩

/-- Closed witness for C1. -/
theorem conn_dropped_after_five_deferrals_witness :
    c1St0.missedConns = [] ∧ alGet c1Conn.pid c1St0.knownPids = none ∧
    (runRounds c1St0 [c1Round0, c1RoundQ, c1RoundQ, c1RoundQ, c1RoundQ]).missedConns
      = [⟨c1Conn, 5⟩] ∧
    (runRounds c1St0 [c1Round0, c1RoundQ, c1RoundQ, c1RoundQ, c1RoundQ, c1RoundQ]).missedConns
      = [] ∧
    (updaterRound c1RoundQ
      (runRounds c1St0 [c1Round0, c1RoundQ, c1RoundQ, c1RoundQ, c1RoundQ])).2 = [] := by
  have h := conn_dropped_after_five_deferrals c1Round0 c1RoundQ c1RoundQ c1RoundQ
    c1RoundQ c1RoundQ c1St0 c1Conn rfl rfl rfl rfl rfl rfl rfl rfl rfl
    (by simp [c1RoundQ, c1Round0])
  exact ⟨rfl, rfl, h.2.2.2.2.1, h.2.2.2.2.2.1, h.2.2.2.2.2.2.2.2.2.2.2.2.2⟩

end Picosnitch
